import Mathlib

/-!
Verification of the team71_A1 competitive-sudoku move-search subsystem.

The Python sources (`rules.py`, `heuristics.py`, `sudokuai.py`) are shallowly
embedded below.  Machine integers are `Nat`/`Int`/`Rat`; Python lists are Lean
`List`s; Python floats are embedded as exact rationals; the `float('-inf')` /
`float('inf')` sentinels of the search are embedded as `⊥`/`⊤` of
`WithBot (WithTop ℚ)`.

The host framework (`competitive_sudoku.sudoku`) is not part of the repository
sources.  Where its behaviour is needed it is modelled from the spec:
`Board` carries the grid dimension `N`, the block height `n`, the block width
`m` (spec: "block height n, block width m (N = n·m)") and a row-major list of
squares (spec: "index = row*N + col"); `GameState.player_squares` returns an
externally supplied allowed-squares list for the current player.
-/

namespace Team71

/-- Modelled from the spec: the host `SudokuBoard`.  `N` is the grid
dimension, `n` the block height (rows per block), `m` the block width
(columns per block); `squares` is the row-major cell list, `0` = empty. -/
structure Board where
  N : Nat
  n : Nat
  m : Nat
  squares : List Nat
  deriving Repr, DecidableEq

/-- Modelled from the spec: the host `SudokuBoard.put`, which fills one cell
using the row-major indexing `index = row*N + col`. -/
def Board.put (b : Board) (square : Nat × Nat) (val : Nat) : Board :=
  { b with squares := b.squares.set (square.1 * b.N + square.2) val }

/-- Modelled from the spec: the host `Move` value, a square plus a value. -/
structure MoveT where
  square : Nat × Nat
  value : Nat
  deriving Repr, DecidableEq

/-- Embedding of `rules.LocalOracle`: row/column/box used-value bitmasks plus
the taboo set.  The mask lists of the Python class are embedded as total
functions from the region index to the mask. -/
structure LocalOracle where
  board : Board
  N : Nat
  m : Nat
  n : Nat
  rows : Nat → Nat
  cols : Nat → Nat
  boxes : Nat → Nat
  taboo_set : List (Nat × Nat × Nat)

/-- Embedding of `LocalOracle.get_box_index`. -/
def LocalOracle.get_box_index (o : LocalOracle) (r c : Nat) : Nat :=
  let br := r / o.m
  let bc := c / o.n
  br * o.m + bc

/-- Embedding of `LocalOracle.mark_constraints`. -/
def LocalOracle.mark_constraints (o : LocalOracle) (r c val : Nat) : LocalOracle :=
  let mask := 1 <<< (val - 1)
  { o with
    rows := fun i => if i = r then o.rows i ||| mask else o.rows i
    cols := fun j => if j = c then o.cols j ||| mask else o.cols j
    boxes := fun k => if k = o.get_box_index r c then o.boxes k ||| mask else o.boxes k }

/-- Embedding of `LocalOracle.__init__`: build the taboo set and scan the
board in row-major order, marking constraints for every filled cell. -/
def mkLocalOracle (board_object : Board) (taboo_moves : List MoveT) : LocalOracle :=
  let init : LocalOracle :=
    { board := board_object, N := board_object.N, m := board_object.m, n := board_object.n
      rows := fun _ => 0, cols := fun _ => 0, boxes := fun _ => 0
      taboo_set := taboo_moves.map (fun mv => (mv.square.1, mv.square.2, mv.value)) }
  (List.range board_object.N).foldl (fun o i =>
    (List.range board_object.N).foldl (fun o j =>
      let val := board_object.squares.getD (board_object.N * i + j) 0
      if val ≠ 0 then o.mark_constraints i j val else o) o) init

/-- Embedding of `LocalOracle.is_valid_sudoku_move`. -/
def LocalOracle.is_valid_sudoku_move (o : LocalOracle) (r c val : Nat) : Bool :=
  let mask := 1 <<< (val - 1)
  if o.rows r &&& mask ≠ 0 then false
  else if o.cols c &&& mask ≠ 0 then false
  else if o.boxes (o.get_box_index r c) &&& mask ≠ 0 then false
  else true

/-- Embedding of `LocalOracle.get_legal_moves`: for each allowed square that
is empty on the board, keep the values that pass `is_valid_sudoku_move` and
are not taboo, appending in loop order. -/
def LocalOracle.get_legal_moves (o : LocalOracle) (allowed_squares : List (Nat × Nat)) :
    List (Nat × Nat × Nat) :=
  allowed_squares.foldl (fun legal_moves rc =>
    if o.board.squares.getD (o.N * rc.1 + rc.2) 0 ≠ 0 then legal_moves
    else
      (List.range' 1 o.N).foldl (fun legal_moves val =>
        if ¬ o.is_valid_sudoku_move rc.1 rc.2 val then legal_moves
        else if (rc.1, rc.2, val) ∈ o.taboo_set then legal_moves
        else legal_moves ++ [(rc.1, rc.2, val)]) legal_moves) []

/-! ### Spec-side region geometry

These definitions follow the spec's words (block height `n`, block width `m`,
`b_row = r/n`, `b_col = c/m`, `blocks_per_row = N/m`) and serve as the
reference against which the embedded code is compared. -/

/-- Cells of row `r` of an `N × N` board, in column order. -/
def rowCells (N r : Nat) : List (Nat × Nat) :=
  (List.range N).map (fun c => (r, c))

/-- Cells of column `c` of an `N × N` board, in row order. -/
def colCells (N c : Nat) : List (Nat × Nat) :=
  (List.range N).map (fun r => (r, c))

/-- Spec block index of a cell: `b_row * (N/m) + b_col` with `b_row = r/n`,
`b_col = c/m`. -/
def blockIndex (N n m r c : Nat) : Nat :=
  (r / n) * (N / m) + c / m

/-- Cells of the spec block with index `b` (block height `n`, width `m`,
`blocks_per_row = N/m`), in row-major order. -/
def blockCells (N n m b : Nat) : List (Nat × Nat) :=
  (List.range n).flatMap (fun i =>
    (List.range m).map (fun j => ((b / (N / m)) * n + i, (b % (N / m)) * m + j)))

/-- Value of a cell on a row-major board list (0 when out of range). -/
def cellVal (board : List Nat) (N : Nat) (p : Nat × Nat) : Nat :=
  board.getD (p.1 * N + p.2) 0

/-- Spec-side legality of a sudoku move, written from the claim: the value
occurs in neither row `r`, nor column `c`, nor the `n`-row × `m`-column block
containing `(r, c)`. -/
def specValidMove (b : Board) (r c v : Nat) : Bool :=
  decide (v ∉ (rowCells b.N r).map (cellVal b.squares b.N) ∧
    v ∉ (colCells b.N c).map (cellVal b.squares b.N) ∧
    v ∉ (blockCells b.N b.n b.m (blockIndex b.N b.n b.m r c)).map (cellVal b.squares b.N))

/-! ### C10: the box index stays in range -/

/-- C10: for every board dimensions with `N = n·m` and every cell
`(r, c)` with `r < N` and `c < N`, `LocalOracle.get_box_index` returns an
index strictly below `N`, so the `N`-element `rows`/`cols`/`boxes` arrays are
never accessed out of bounds. -/
theorem get_box_index_lt (o : LocalOracle) (r c : Nat)
    (hN : o.N = o.n * o.m) (hr : r < o.N) (hc : c < o.N) :
    o.get_box_index r c < o.N := by
  rw [hN] at hr hc ⊢
  have hNpos : 0 < o.n * o.m := Nat.lt_of_le_of_lt (Nat.zero_le r) hr
  have hm : 0 < o.m := by
    rcases Nat.eq_zero_or_pos o.m with h | h
    · rw [h, Nat.mul_zero] at hNpos; exact absurd hNpos (lt_irrefl 0)
    · exact h
  have hn : 0 < o.n := by
    rcases Nat.eq_zero_or_pos o.n with h | h
    · rw [h, Nat.zero_mul] at hNpos; exact absurd hNpos (lt_irrefl 0)
    · exact h
  have hbr : r / o.m < o.n := (Nat.div_lt_iff_lt_mul hm).mpr hr
  have hbc : c / o.n < o.m :=
    (Nat.div_lt_iff_lt_mul hn).mpr (by rwa [Nat.mul_comm] at hc)
  show r / o.m * o.m + c / o.n < o.n * o.m
  have h1 : r / o.m * o.m ≤ (o.n - 1) * o.m :=
    Nat.mul_le_mul_right _ (by omega)
  have h2 : (o.n - 1) * o.m + o.m = o.n * o.m := by
    have h3 : o.n - 1 + 1 = o.n := by omega
    calc (o.n - 1) * o.m + o.m = (o.n - 1 + 1) * o.m := by ring
      _ = o.n * o.m := by rw [h3]
  omega

/-- Witness for `get_box_index_lt` at a concrete 2×3-tiled 6×6 oracle. -/
theorem get_box_index_lt_witness :
    (mkLocalOracle ⟨6, 2, 3, List.replicate 36 0⟩ []).get_box_index 5 4 < 6 :=
  get_box_index_lt (mkLocalOracle ⟨6, 2, 3, List.replicate 36 0⟩ []) 5 4 rfl
    (by decide) (by decide)

/-! ### C1: block membership used by the constraint oracle

`LocalOracle.get_box_index` divides the row by the block *width* `m` and the
column by the block *height* `n` (`br = r // self.m`, `bc = c // self.n`),
which groups cells into transposed `m`-row × `n`-column blocks.  The rest of
the repository (`heuristics.get_region_status`,
`sudokuai._check_regions_completion`) and the spec use `b_row = r/n`,
`b_col = c/m`.  On the square tilings the two agree, but for `N = 6` with
2×3 blocks they differ, and `is_valid_sudoku_move` rejects moves the spec
declares legal. -/

/-- The 6×6 board (2-row × 3-column blocks) holding a single value 1 at
cell `(0,0)`. -/
def bugBoard : Board :=
  ⟨6, 2, 3, (List.replicate 36 0).set 0 1⟩

/-- C1 failing input: on `bugBoard`, value 1 at cell `(2,1)` occurs in
neither row 2, nor column 1, nor the 2×3 block of `(2,1)` (rows 2–3,
columns 0–2), so the claim says `is_valid_sudoku_move 2 1 1 = true`; the
code returns `false` because its transposed box grouping puts `(2,1)` in the
same box as `(0,0)`. -/
theorem is_valid_sudoku_move_box_bug :
    (mkLocalOracle bugBoard []).is_valid_sudoku_move 2 1 1 = false ∧
      specValidMove bugBoard 2 1 1 = true := by
  constructor
  · rfl
  · rfl

/-! ### Embedding of `sudokuai.SudokuAI` state and move application -/

/-- Embedding of the host `GameState` snapshot as used by the agent: board,
taboo list, current player, per-player scores (index `player - 1` in the
source, fields `.1`/`.2` here), occupied-square histories, and — modelled
from the spec — the externally supplied per-player allowed-squares lists. -/
structure GameState where
  board : Board
  taboo_moves : List MoveT
  current_player : Nat
  scores : Int × Int
  occupied_squares1 : List (Nat × Nat)
  occupied_squares2 : List (Nat × Nat)
  allowed1 : List (Nat × Nat)
  allowed2 : List (Nat × Nat)
  deriving Repr, DecidableEq

/-- Modelled from the spec: the host `GameState.player_squares`, "the set of
(row,column) cells that player is currently permitted to fill", supplied
externally for each player and selected by the current player. -/
def GameState.player_squares (gs : GameState) : List (Nat × Nat) :=
  if gs.current_player = 1 then gs.allowed1 else gs.allowed2

/-- Core of `SudokuAI._check_regions_completion`: count how many of the
row, column and block checks succeed, given the closure `is_filled` over
row-major indices (the source's local predicate). -/
def regionsCompletedCore (N n m r c : Nat) (is_filled : Nat → Bool) : Nat :=
  (if (List.range N).all (fun i => is_filled (r * N + i)) then 1 else 0) +
  (if (List.range N).all (fun i => is_filled (c + i * N)) then 1 else 0) +
  (if (List.range n).all (fun bi => (List.range m).all (fun bj =>
      is_filled ((r / n * n + bi) * N + (c / m * m + bj)))) then 1 else 0)

/-- Embedding of `SudokuAI._check_regions_completion`: the target cell counts
as filled when `is_hypothetical` is set. -/
def check_regions_completion (b : Board) (r c : Nat) (is_hypothetical : Bool) : Nat :=
  regionsCompletedCore b.N b.n b.m r c (fun idx =>
    (b.squares.getD idx 0 != 0) || (is_hypothetical && (idx == r * b.N + c)))

/-- Embedding of `SudokuAI._map_points_to_score`. -/
def map_points_to_score (regions_count : Nat) : Nat :=
  if regions_count = 1 then 1
  else if regions_count = 2 then 3
  else if regions_count = 3 then 7
  else 0

/-- Embedding of `SudokuAI.apply_move`: place the value, append the square to
the mover's occupied history, add the completion points to the mover's score,
and flip the current player. -/
def apply_move (gs : GameState) (mv : MoveT) : GameState :=
  let board1 := gs.board.put mv.square mv.value
  let gs1 : GameState := { gs with board := board1 }
  let gs2 : GameState :=
    if gs1.current_player = 1 then
      { gs1 with occupied_squares1 := gs1.occupied_squares1 ++ [mv.square] }
    else
      { gs1 with occupied_squares2 := gs1.occupied_squares2 ++ [mv.square] }
  let regions_completed := check_regions_completion gs2.board mv.square.1 mv.square.2 false
  let score_add := map_points_to_score regions_completed
  let gs3 : GameState :=
    if gs2.current_player = 1 then
      { gs2 with scores := (gs2.scores.1 + score_add, gs2.scores.2) }
    else
      { gs2 with scores := (gs2.scores.1, gs2.scores.2 + score_add) }
  { gs3 with current_player := 3 - gs3.current_player }

/-- Embedding of `SudokuAI._get_immediate_points`. -/
def get_immediate_points (gs : GameState) (mv : MoveT) : Nat :=
  map_points_to_score (check_regions_completion gs.board mv.square.1 mv.square.2 true)

/-! ### C5: hypothetical completion check agrees with the post-hoc check -/

/-- C5: on an empty cell `(r,c)` of a well-formed board, the hypothetical
region-completion count equals the non-hypothetical count taken right after
filling the cell with any value `1..N`, and the count is at most 3. -/
theorem check_regions_completion_hypothetical (b : Board) (r c v : Nat)
    (hlen : b.squares.length = b.N * b.N) (hr : r < b.N) (hc : c < b.N)
    (hempty : b.squares.getD (r * b.N + c) 0 = 0) (hv1 : 1 ≤ v) (hvN : v ≤ b.N) :
    check_regions_completion b r c true =
      check_regions_completion (b.put (r, c) v) r c false ∧
    check_regions_completion b r c true ≤ 3 := by
  have hNpos : 0 < b.N := Nat.lt_of_le_of_lt (Nat.zero_le r) hr
  have hidx : r * b.N + c < b.squares.length := by
    rw [hlen]
    have h1 : r * b.N ≤ (b.N - 1) * b.N := Nat.mul_le_mul_right _ (by omega)
    have h2 : (b.N - 1) * b.N + b.N = b.N * b.N := by
      have h3 : b.N - 1 + 1 = b.N := by omega
      calc (b.N - 1) * b.N + b.N = (b.N - 1 + 1) * b.N := by ring
        _ = b.N * b.N := by rw [h3]
    omega
  constructor
  · unfold check_regions_completion Board.put
    have hfill : ∀ idx : Nat,
        ((b.squares.getD idx 0 != 0) || (true && (idx == r * b.N + c))) =
          (((b.squares.set (r * b.N + c) v).getD idx 0 != 0) || (false && (idx == r * b.N + c))) := by
      intro idx
      by_cases h : idx = r * b.N + c
      · rw [h]
        have hget : (b.squares.set (r * b.N + c) v).getD (r * b.N + c) 0 = v := by
          rw [List.getD_eq_getElem?_getD, List.getElem?_set_self (by omega)]
          rfl
        rw [hget, hempty]
        have hv0 : v ≠ 0 := by omega
        simp [hv0]
      · have hget : (b.squares.set (r * b.N + c) v).getD idx 0 = b.squares.getD idx 0 := by
          rw [List.getD_eq_getElem?_getD, List.getElem?_set_ne (by omega),
            ← List.getD_eq_getElem?_getD]
        rw [hget]
        simp [h]
    simp only [hfill]
  · unfold check_regions_completion regionsCompletedCore
    split_ifs <;> norm_num

/-- Witness for `check_regions_completion_hypothetical` on a concrete 4×4
board whose row 0 is complete once cell `(0,0)` is filled. -/
theorem check_regions_completion_hypothetical_witness :
    check_regions_completion ⟨4, 2, 2, [0,2,3,4, 3,4,1,2, 0,0,0,0, 0,0,0,0]⟩ 0 0 true =
      check_regions_completion ((⟨4, 2, 2, [0,2,3,4, 3,4,1,2, 0,0,0,0, 0,0,0,0]⟩ : Board).put (0, 0) 1) 0 0 false ∧
    check_regions_completion ⟨4, 2, 2, [0,2,3,4, 3,4,1,2, 0,0,0,0, 0,0,0,0]⟩ 0 0 true ≤ 3 :=
  check_regions_completion_hypothetical _ 0 0 1 (by decide) (by decide) (by decide)
    (by decide) (by decide) (by decide)

/-! ### C4: the apply-move frame -/

/-- Spec-side region completeness: every cell of the region is non-empty. -/
def regionCompleteB (board : List Nat) (N : Nat) (cells : List (Nat × Nat)) : Bool :=
  cells.all (fun p => cellVal board N p != 0)

/-- Spec-side count of fully non-empty regions among the row, the column and
the block of `(r, c)`. -/
def completedCount (board : List Nat) (N n m r c : Nat) : Nat :=
  (if regionCompleteB board N (rowCells N r) then 1 else 0) +
  (if regionCompleteB board N (colCells N c) then 1 else 0) +
  (if regionCompleteB board N (blockCells N n m (blockIndex N n m r c)) then 1 else 0)

/-- Row-major indexing is injective on in-range cells. -/
theorem rowMajor_inj {N a b c d : Nat} (hb : b < N) (hd : d < N)
    (h : a * N + b = c * N + d) : a = c ∧ b = d := by
  have hN0 : 0 < N := Nat.lt_of_le_of_lt (Nat.zero_le b) hb
  have h1 : (a * N + b) / N = a := by
    rw [Nat.mul_comm a N, Nat.mul_add_div hN0, Nat.div_eq_of_lt hb, Nat.add_zero]
  have h2 : (c * N + d) / N = c := by
    rw [Nat.mul_comm c N, Nat.mul_add_div hN0, Nat.div_eq_of_lt hd, Nat.add_zero]
  have hac : a = c := by rw [← h1, ← h2, h]
  refine ⟨hac, ?_⟩
  rw [hac] at h
  omega

/-- Auxiliary: `all` over a `map` with a type-changing function. -/
theorem all_map_general {α β : Type} (l : List α) (f : α → β) (p : β → Bool) :
    (l.map f).all p = l.all (fun a => p (f a)) := by
  induction l with
  | nil => rfl
  | cons a l ih => simp only [List.map_cons, List.all_cons, ih]

/-- The embedded non-hypothetical completion check agrees with the spec-side
count of complete regions. -/
theorem check_regions_eq_completedCount (b : Board) (r c : Nat)
    (hn : 0 < b.n) (hm : 0 < b.m) (hN : b.N = b.n * b.m)
    (hr : r < b.N) (hc : c < b.N) :
    check_regions_completion b r c false =
      completedCount b.squares b.N b.n b.m r c := by
  have hNm : b.N / b.m = b.n := by rw [hN, Nat.mul_div_cancel _ hm]
  have hcm : c / b.m < b.n := by
    apply (Nat.div_lt_iff_lt_mul hm).mpr
    rw [← hN]; exact hc
  have hdiv : blockIndex b.N b.n b.m r c / (b.N / b.m) = r / b.n := by
    unfold blockIndex
    rw [hNm, Nat.mul_comm (r / b.n) b.n, Nat.mul_add_div hn,
      Nat.div_eq_of_lt hcm, Nat.add_zero]
  have hmod : blockIndex b.N b.n b.m r c % (b.N / b.m) = c / b.m := by
    unfold blockIndex
    rw [hNm, Nat.mul_comm (r / b.n) b.n, Nat.mul_add_mod, Nat.mod_eq_of_lt hcm]
  have hrow : ((List.range b.N).all fun i => b.squares.getD (r * b.N + i) 0 != 0)
      = regionCompleteB b.squares b.N (rowCells b.N r) := by
    unfold regionCompleteB rowCells
    rw [all_map_general]
    rfl
  have hcol : ((List.range b.N).all fun i => b.squares.getD (c + i * b.N) 0 != 0)
      = regionCompleteB b.squares b.N (colCells b.N c) := by
    unfold regionCompleteB colCells
    rw [all_map_general]
    congr 1
    funext i
    show (b.squares.getD (c + i * b.N) 0 != 0) = (b.squares.getD (i * b.N + c) 0 != 0)
    rw [Nat.add_comm]
  have hblk : ((List.range b.n).all fun bi => (List.range b.m).all fun bj =>
        b.squares.getD ((r / b.n * b.n + bi) * b.N + (c / b.m * b.m + bj)) 0 != 0)
      = regionCompleteB b.squares b.N
          (blockCells b.N b.n b.m (blockIndex b.N b.n b.m r c)) := by
    unfold regionCompleteB blockCells
    rw [hdiv, hmod, List.all_flatMap]
    congr 1
    funext bi
    rw [all_map_general]
    rfl
  unfold check_regions_completion regionsCompletedCore completedCount
  simp only [Bool.false_and, Bool.or_false]
  rw [hrow, hcol, hblk]

/-- Conclusion of the C4 frame property, with `s` standing for
`apply_move gs mv`, `p = gs.current_player` and `(r, c) = mv.square`:  the
target cell now holds the value; every other in-range cell is unchanged; the
board dimensions, taboo list and the non-moving player's score and occupied
list are unchanged; the mover's occupied list gains exactly the square, the
mover's score gains exactly `map_points_to_score` of the number of regions
of `(r, c)` that are fully non-empty after the placement; the current player
flips to `3 - p`; and the points table is 0/1/3/7. -/
def ApplyMoveFrameAt (gs : GameState) (mv : MoveT) (s : GameState) : Prop :=
  cellVal s.board.squares s.board.N mv.square = mv.value ∧
  (∀ p : Nat × Nat, p.1 < gs.board.N → p.2 < gs.board.N → p ≠ mv.square →
    cellVal s.board.squares s.board.N p = cellVal gs.board.squares gs.board.N p) ∧
  s.board.N = gs.board.N ∧ s.board.n = gs.board.n ∧ s.board.m = gs.board.m ∧
  (gs.current_player = 1 →
    s.occupied_squares1 = gs.occupied_squares1 ++ [mv.square] ∧
    s.occupied_squares2 = gs.occupied_squares2 ∧
    s.scores.1 = gs.scores.1 + (map_points_to_score (completedCount s.board.squares
      gs.board.N gs.board.n gs.board.m mv.square.1 mv.square.2) : Int) ∧
    s.scores.2 = gs.scores.2) ∧
  (gs.current_player = 2 →
    s.occupied_squares2 = gs.occupied_squares2 ++ [mv.square] ∧
    s.occupied_squares1 = gs.occupied_squares1 ∧
    s.scores.2 = gs.scores.2 + (map_points_to_score (completedCount s.board.squares
      gs.board.N gs.board.n gs.board.m mv.square.1 mv.square.2) : Int) ∧
    s.scores.1 = gs.scores.1) ∧
  s.taboo_moves = gs.taboo_moves ∧
  s.current_player = 3 - gs.current_player ∧
  map_points_to_score 0 = 0 ∧ map_points_to_score 1 = 1 ∧
  map_points_to_score 2 = 3 ∧ map_points_to_score 3 = 7

/-- With the current player equal to 1, `apply_move` produces exactly this
record. -/
theorem apply_move_eq_p1 (gs : GameState) (mv : MoveT) (h1 : gs.current_player = 1) :
    apply_move gs mv = { gs with
      board := gs.board.put mv.square mv.value,
      occupied_squares1 := gs.occupied_squares1 ++ [mv.square],
      scores := (gs.scores.1 + (map_points_to_score (check_regions_completion
        (gs.board.put mv.square mv.value) mv.square.1 mv.square.2 false) : Int),
        gs.scores.2),
      current_player := 2 } := by
  unfold apply_move
  simp [h1]

/-- With the current player equal to 2, `apply_move` produces exactly this
record. -/
theorem apply_move_eq_p2 (gs : GameState) (mv : MoveT) (h2 : gs.current_player = 2) :
    apply_move gs mv = { gs with
      board := gs.board.put mv.square mv.value,
      occupied_squares2 := gs.occupied_squares2 ++ [mv.square],
      scores := (gs.scores.1,
        gs.scores.2 + (map_points_to_score (check_regions_completion
        (gs.board.put mv.square mv.value) mv.square.1 mv.square.2 false) : Int)),
      current_player := 1 } := by
  unfold apply_move
  simp [h2]

/-- C4: `apply_move` changes exactly the target cell, the mover's occupied
list and score (by the 0/1/3/7 award for the regions completed by the
placement), and the current player; everything else is untouched. -/
theorem apply_move_frame (gs : GameState) (mv : MoveT)
    (hn : 0 < gs.board.n) (hm : 0 < gs.board.m)
    (hN : gs.board.N = gs.board.n * gs.board.m)
    (hlen : gs.board.squares.length = gs.board.N * gs.board.N)
    (hr : mv.square.1 < gs.board.N) (hc : mv.square.2 < gs.board.N)
    (hp : gs.current_player = 1 ∨ gs.current_player = 2) :
    ApplyMoveFrameAt gs mv (apply_move gs mv) := by
  have hNpos : 0 < gs.board.N := Nat.lt_of_le_of_lt (Nat.zero_le _) hr
  have hidx : mv.square.1 * gs.board.N + mv.square.2 < gs.board.squares.length := by
    rw [hlen]
    have h1 : mv.square.1 * gs.board.N ≤ (gs.board.N - 1) * gs.board.N :=
      Nat.mul_le_mul_right _ (by omega)
    have h2 : (gs.board.N - 1) * gs.board.N + gs.board.N = gs.board.N * gs.board.N := by
      have h3 : gs.board.N - 1 + 1 = gs.board.N := by omega
      calc (gs.board.N - 1) * gs.board.N + gs.board.N
          = (gs.board.N - 1 + 1) * gs.board.N := by ring
        _ = gs.board.N * gs.board.N := by rw [h3]
    omega
  have hput : ∀ v, (gs.board.put mv.square v).squares.getD
      (mv.square.1 * gs.board.N + mv.square.2) 0 = v := by
    intro v
    unfold Board.put
    rw [List.getD_eq_getElem?_getD, List.getElem?_set_self (by omega)]
    rfl
  have hputne : ∀ v (p : Nat × Nat), p.1 < gs.board.N → p.2 < gs.board.N →
      p ≠ mv.square → (gs.board.put mv.square v).squares.getD
        (p.1 * gs.board.N + p.2) 0 = gs.board.squares.getD (p.1 * gs.board.N + p.2) 0 := by
    intro v p hp1 hp2 hne
    unfold Board.put
    rw [List.getD_eq_getElem?_getD, List.getElem?_set_ne, ← List.getD_eq_getElem?_getD]
    intro hEq
    obtain ⟨ha, hb⟩ := rowMajor_inj hc hp2 hEq
    apply hne
    apply Prod.ext
    · exact ha.symm
    · exact hb.symm
  have hcheck : check_regions_completion (gs.board.put mv.square mv.value)
      mv.square.1 mv.square.2 false =
      completedCount (gs.board.put mv.square mv.value).squares
        gs.board.N gs.board.n gs.board.m mv.square.1 mv.square.2 := by
    have := check_regions_eq_completedCount (gs.board.put mv.square mv.value)
      mv.square.1 mv.square.2 hn hm hN hr hc
    exact this
  rcases hp with h1 | h2
  · rw [apply_move_eq_p1 gs mv h1]
    unfold ApplyMoveFrameAt
    refine ⟨hput mv.value, ?_, rfl, rfl, rfl, ?_, ?_, rfl, ?_, rfl, rfl, rfl, rfl⟩
    · intro p hp1 hp2 hne
      exact hputne mv.value p hp1 hp2 hne
    · intro _
      refine ⟨rfl, rfl, ?_, rfl⟩
      show gs.scores.1 + (map_points_to_score (check_regions_completion
        (gs.board.put mv.square mv.value) mv.square.1 mv.square.2 false) : Int) = _
      rw [hcheck]
    · intro habs
      omega
    · show (2 : Nat) = 3 - gs.current_player
      omega
  · rw [apply_move_eq_p2 gs mv h2]
    unfold ApplyMoveFrameAt
    refine ⟨hput mv.value, ?_, rfl, rfl, rfl, ?_, ?_, rfl, ?_, rfl, rfl, rfl, rfl⟩
    · intro p hp1 hp2 hne
      exact hputne mv.value p hp1 hp2 hne
    · intro habs
      omega
    · intro _
      refine ⟨rfl, rfl, ?_, rfl⟩
      show gs.scores.2 + (map_points_to_score (check_regions_completion
        (gs.board.put mv.square mv.value) mv.square.1 mv.square.2 false) : Int) = _
      rw [hcheck]
    · show (1 : Nat) = 3 - gs.current_player
      omega

/-- The concrete 4×4 game used by the C4 witness. -/
def witnessState : GameState :=
  ⟨⟨4, 2, 2, [0,2,3,4, 3,4,1,2, 0,0,0,0, 0,0,0,0]⟩, [], 1, (0, 0), [], [], [(0,0)], [(2,2)]⟩

/-- Witness for `apply_move_frame`: a 4×4 game where player 1 fills `(0,0)`. -/
theorem apply_move_frame_witness :
    ApplyMoveFrameAt witnessState ⟨(0, 0), 1⟩ (apply_move witnessState ⟨(0, 0), 1⟩) :=
  apply_move_frame witnessState ⟨(0, 0), 1⟩ (by decide) (by decide) (by decide)
    (by decide) (by decide) (by decide) (Or.inl rfl)

/-! ### C7: characterization of `get_legal_moves` -/

/-- The per-cell inner loop of `get_legal_moves` appends exactly the filtered
value list. -/
theorem legal_inner_foldl (o : LocalOracle) (r c : Nat) (vals : List Nat)
    (acc : List (Nat × Nat × Nat)) :
    vals.foldl (fun legal_moves val =>
        if ¬ o.is_valid_sudoku_move r c val then legal_moves
        else if (r, c, val) ∈ o.taboo_set then legal_moves
        else legal_moves ++ [(r, c, val)]) acc =
      acc ++ (vals.filter (fun val =>
        o.is_valid_sudoku_move r c val && decide ((r, c, val) ∉ o.taboo_set))).map
          (fun val => (r, c, val)) := by
  induction vals generalizing acc with
  | nil => simp
  | cons v vs ih =>
    rw [List.foldl_cons, List.filter_cons]
    by_cases hv : o.is_valid_sudoku_move r c v = true
    · by_cases ht : (r, c, v) ∈ o.taboo_set
      · rw [if_neg (by simp [hv]), if_pos ht, ih, if_neg (by simp [ht])]
      · rw [if_neg (by simp [hv]), if_neg ht, ih, if_pos (by simp [hv, ht]),
          List.map_cons, List.append_assoc]
        rfl
    · rw [if_pos hv, ih, if_neg (by simp [hv])]

/-- The outer loop of `get_legal_moves` appends, per candidate cell, the block
of its legal values (empty for non-empty cells). -/
theorem legal_outer_foldl (o : LocalOracle) (cells : List (Nat × Nat))
    (acc : List (Nat × Nat × Nat)) :
    cells.foldl (fun legal_moves rc =>
        if o.board.squares.getD (o.N * rc.1 + rc.2) 0 ≠ 0 then legal_moves
        else
          (List.range' 1 o.N).foldl (fun legal_moves val =>
            if ¬ o.is_valid_sudoku_move rc.1 rc.2 val then legal_moves
            else if (rc.1, rc.2, val) ∈ o.taboo_set then legal_moves
            else legal_moves ++ [(rc.1, rc.2, val)]) legal_moves) acc =
      acc ++ cells.flatMap (fun rc =>
        if o.board.squares.getD (o.N * rc.1 + rc.2) 0 ≠ 0 then []
        else ((List.range' 1 o.N).filter (fun val =>
          o.is_valid_sudoku_move rc.1 rc.2 val && decide ((rc.1, rc.2, val) ∉ o.taboo_set))).map
            (fun val => (rc.1, rc.2, val))) := by
  induction cells generalizing acc with
  | nil => simp
  | cons rc cs ih =>
    rw [List.foldl_cons, List.flatMap_cons]
    by_cases he : o.board.squares.getD (o.N * rc.1 + rc.2) 0 ≠ 0
    · rw [if_pos he, if_pos he, ih, List.nil_append]
    · rw [if_neg he, if_neg he, legal_inner_foldl, ih, List.append_assoc]

/-- Membership characterization of `get_legal_moves`. -/
theorem get_legal_moves_mem_iff (o : LocalOracle) (allowed : List (Nat × Nat)) (r c v : Nat) :
    (r, c, v) ∈ o.get_legal_moves allowed ↔
      ((r, c) ∈ allowed ∧ o.board.squares.getD (o.N * r + c) 0 = 0 ∧
        1 ≤ v ∧ v < 1 + o.N ∧ o.is_valid_sudoku_move r c v = true ∧
        (r, c, v) ∉ o.taboo_set) := by
  have hflat := legal_outer_foldl o allowed []
  unfold LocalOracle.get_legal_moves
  rw [hflat]
  simp only [List.nil_append, List.mem_flatMap]
  constructor
  · rintro ⟨rc, hrc, hmem⟩
    by_cases he : o.board.squares.getD (o.N * rc.1 + rc.2) 0 ≠ 0
    · rw [if_pos he] at hmem
      exact absurd hmem (List.not_mem_nil _)
    · rw [if_neg he] at hmem
      push_neg at he
      obtain ⟨val, hval, heq⟩ := List.mem_map.mp hmem
      obtain ⟨hval1, hval2⟩ := List.mem_filter.mp hval
      have hval3 : o.is_valid_sudoku_move rc.1 rc.2 val = true ∧
          decide ((rc.1, rc.2, val) ∉ o.taboo_set) = true := by simpa using hval2
      obtain ⟨hv, ht⟩ := hval3
      obtain ⟨hlo, hhi⟩ := List.mem_range'_1.mp hval1
      have h1 : rc.1 = r := congrArg Prod.fst heq
      have h2 : rc.2 = c := congrArg Prod.fst (congrArg Prod.snd heq)
      have h3 : val = v := congrArg (fun t => t.2.2) heq
      subst h3
      refine ⟨?_, ?_, hlo, hhi, ?_, ?_⟩
      · rw [← h1, ← h2]
        exact (Prod.mk.eta (p := rc)) ▸ hrc
      · rw [← h1, ← h2]; exact he
      · rw [← h1, ← h2]; exact hv
      · rw [← h1, ← h2]
        exact of_decide_eq_true ht
  · rintro ⟨hrc, he, hlo, hhi, hv, ht⟩
    refine ⟨(r, c), hrc, ?_⟩
    rw [if_neg (by simpa using he)]
    apply List.mem_map.mpr
    refine ⟨v, ?_, rfl⟩
    apply List.mem_filter.mpr
    refine ⟨List.mem_range'_1.mpr ⟨hlo, hhi⟩, ?_⟩
    rw [hv, decide_eq_true ht]
    rfl

/-- C7: `get_legal_moves` returns exactly the moves at allowed, empty squares
that pass `is_valid_sudoku_move` and are not taboo — in candidate-cell order
with ascending values inside a cell (the `flatMap` normal form), with the
membership characterization; in particular no returned move is taboo or
targets a non-empty cell, and the result is `[]` when nothing qualifies. -/
theorem get_legal_moves_spec (o : LocalOracle) (allowed : List (Nat × Nat)) :
    o.get_legal_moves allowed =
      allowed.flatMap (fun rc =>
        if o.board.squares.getD (o.N * rc.1 + rc.2) 0 ≠ 0 then []
        else ((List.range' 1 o.N).filter (fun val =>
          o.is_valid_sudoku_move rc.1 rc.2 val && decide ((rc.1, rc.2, val) ∉ o.taboo_set))).map
            (fun val => (rc.1, rc.2, val))) ∧
    ∀ r c v, (r, c, v) ∈ o.get_legal_moves allowed ↔
      ((r, c) ∈ allowed ∧ o.board.squares.getD (o.N * r + c) 0 = 0 ∧
        1 ≤ v ∧ v < 1 + o.N ∧ o.is_valid_sudoku_move r c v = true ∧
        (r, c, v) ∉ o.taboo_set) :=
  ⟨legal_outer_foldl o allowed [], fun r c v => get_legal_moves_mem_iff o allowed r c v⟩

/-! ### Embedding of `heuristics.Heuristics.get_region_status` -/

/-- One region record of the region scanner: empty-cell count, ordered
empty-cell coordinates, and the used-value bitmask. -/
structure RegionRec where
  zeros : Nat
  empty_indices : List (Nat × Nat)
  used_mask : Nat
  deriving Repr, DecidableEq

/-- The initial region record (`{'zeros': 0, 'empty_indices': [], 'used_mask': 0}`). -/
def initRec : RegionRec := ⟨0, [], 0⟩

/-- The three record arrays returned by the scanner. -/
structure RegionStatus where
  rows : List RegionRec
  cols : List RegionRec
  blocks : List RegionRec
  deriving Repr, DecidableEq

/-- The row-major cell traversal order of the scanner's double loop. -/
def cellsList (N : Nat) : List (Nat × Nat) :=
  (List.range N).flatMap (fun r => (List.range N).map (fun c => (r, c)))

/-- The per-cell update a region record receives in the scanner's loop body:
an empty cell bumps `zeros` and appends the coordinate, a filled cell ors the
value bit into `used_mask`. -/
def regionUpd (board : List Nat) (N : Nat) (reg : RegionRec) (cell : Nat × Nat) : RegionRec :=
  if cellVal board N cell = 0 then
    { reg with zeros := reg.zeros + 1, empty_indices := reg.empty_indices ++ [cell] }
  else
    { reg with used_mask := reg.used_mask ||| 1 <<< (cellVal board N cell - 1) }

/-- One iteration of the scanner's double loop: update the row, column and
block records of the visited cell (block index `b_row * (N/m) + b_col`). -/
def scanStep (board : List Nat) (N n m : Nat) (st : RegionStatus) (cell : Nat × Nat) :
    RegionStatus :=
  { rows := st.rows.set cell.1 (regionUpd board N (st.rows.getD cell.1 initRec) cell),
    cols := st.cols.set cell.2 (regionUpd board N (st.cols.getD cell.2 initRec) cell),
    blocks := st.blocks.set (blockIndex N n m cell.1 cell.2)
      (regionUpd board N (st.blocks.getD (blockIndex N n m cell.1 cell.2) initRec) cell) }

/-- Embedding of `Heuristics.get_region_status`: scan all cells in row-major
order starting from `N` fresh records per region kind. -/
def get_region_status (board : List Nat) (N n m : Nat) : RegionStatus :=
  (cellsList N).foldl (scanStep board N n m)
    ⟨List.replicate N initRec, List.replicate N initRec, List.replicate N initRec⟩

/-- The rows component of the scan is a fold touching only row records. -/
theorem scan_rows_foldl (board : List Nat) (N n m : Nat) :
    ∀ (l : List (Nat × Nat)) (st : RegionStatus),
    (l.foldl (scanStep board N n m) st).rows =
      l.foldl (fun a cell => a.set cell.1 (regionUpd board N (a.getD cell.1 initRec) cell))
        st.rows := by
  intro l
  induction l with
  | nil => intro st; rfl
  | cons cell cs ih =>
    intro st
    rw [List.foldl_cons, List.foldl_cons, ih]
    rfl

/-- The cols component of the scan is a fold touching only column records. -/
theorem scan_cols_foldl (board : List Nat) (N n m : Nat) :
    ∀ (l : List (Nat × Nat)) (st : RegionStatus),
    (l.foldl (scanStep board N n m) st).cols =
      l.foldl (fun a cell => a.set cell.2 (regionUpd board N (a.getD cell.2 initRec) cell))
        st.cols := by
  intro l
  induction l with
  | nil => intro st; rfl
  | cons cell cs ih =>
    intro st
    rw [List.foldl_cons, List.foldl_cons, ih]
    rfl

/-- The blocks component of the scan is a fold touching only block records. -/
theorem scan_blocks_foldl (board : List Nat) (N n m : Nat) :
    ∀ (l : List (Nat × Nat)) (st : RegionStatus),
    (l.foldl (scanStep board N n m) st).blocks =
      l.foldl (fun a cell => a.set (blockIndex N n m cell.1 cell.2)
        (regionUpd board N (a.getD (blockIndex N n m cell.1 cell.2) initRec) cell))
        st.blocks := by
  intro l
  induction l with
  | nil => intro st; rfl
  | cons cell cs ih =>
    intro st
    rw [List.foldl_cons, List.foldl_cons, ih]
    rfl

/-- Folding keyed record updates over a cell list, read back at index `i`,
is the plain fold over the cells whose key is `i`. -/
theorem foldl_set_key (upd : RegionRec → (Nat × Nat) → RegionRec) (key : (Nat × Nat) → Nat) :
    ∀ (l : List (Nat × Nat)) (arr : List RegionRec) (i : Nat), i < arr.length →
    (l.foldl (fun a cell => a.set (key cell) (upd (a.getD (key cell) initRec) cell)) arr).getD
        i initRec =
      (l.filter (fun cell => key cell == i)).foldl upd (arr.getD i initRec) := by
  intro l
  induction l with
  | nil => intro arr i hi; rfl
  | cons cell cs ih =>
    intro arr i hi
    rw [List.foldl_cons, List.filter_cons]
    by_cases hk : key cell = i
    · rw [if_pos (by simp [hk]), List.foldl_cons]
      rw [ih _ i (by rw [List.length_set]; exact hi)]
      congr 1
      rw [hk, List.getD_eq_getElem?_getD, List.getElem?_set_self (by omega),
        Option.getD_some]
    · rw [if_neg (by simp [hk])]
      rw [ih _ i (by rw [List.length_set]; exact hi)]
      congr 1
      rw [List.getD_eq_getElem?_getD, List.getElem?_set_ne hk, ← List.getD_eq_getElem?_getD]

/-- The used-mask accumulated over a cell list, starting from mask `a`. -/
def regionMaskAux (board : List Nat) (N : Nat) (a : Nat) (L : List (Nat × Nat)) : Nat :=
  L.foldl (fun acc p => if cellVal board N p = 0 then acc
    else acc ||| 1 <<< (cellVal board N p - 1)) a

/-- The used-mask of a region given by its cell list. -/
def regionMask (board : List Nat) (N : Nat) (L : List (Nat × Nat)) : Nat :=
  regionMaskAux board N 0 L

/-- The mask fold factors through its initial value by an `or`. -/
theorem regionMaskAux_or (board : List Nat) (N : Nat) :
    ∀ (L : List (Nat × Nat)) (a : Nat),
    regionMaskAux board N a L = a ||| regionMaskAux board N 0 L := by
  intro L
  induction L with
  | nil => intro a; show a = a ||| 0; rw [Nat.or_zero]
  | cons p ps ih =>
    intro a
    show regionMaskAux board N (if cellVal board N p = 0 then a
        else a ||| 1 <<< (cellVal board N p - 1)) ps =
      a ||| regionMaskAux board N (if cellVal board N p = 0 then 0
        else 0 ||| 1 <<< (cellVal board N p - 1)) ps
    by_cases hp : cellVal board N p = 0
    · rw [if_pos hp, if_pos hp, ih a]
    · rw [if_neg hp, if_neg hp, Nat.zero_or, ih (a ||| 1 <<< (cellVal board N p - 1)),
        ih (1 <<< (cellVal board N p - 1)), Nat.or_assoc]

/-- Fold of `regionUpd` over a region's cells, from an arbitrary record:
`zeros` gains the number of empty cells, `empty_indices` gains the ordered
empty-cell list, `used_mask` ors in the region mask. -/
theorem regionUpd_foldl (board : List Nat) (N : Nat) :
    ∀ (L : List (Nat × Nat)) (z : Nat) (e : List (Nat × Nat)) (mk : Nat),
    L.foldl (regionUpd board N) ⟨z, e, mk⟩ =
      ⟨z + (L.filter (fun p => cellVal board N p == 0)).length,
       e ++ L.filter (fun p => cellVal board N p == 0),
       mk ||| regionMask board N L⟩ := by
  intro L
  induction L with
  | nil =>
    intro z e mk
    show RegionRec.mk z e mk = _
    rw [List.filter_nil]
    show RegionRec.mk z e mk = ⟨z + 0, e ++ [], mk ||| 0⟩
    rw [Nat.add_zero, List.append_nil, Nat.or_zero]
  | cons p ps ih =>
    intro z e mk
    rw [List.foldl_cons, List.filter_cons]
    have hmask : regionMask board N (p :: ps) =
        (if cellVal board N p = 0 then 0 else 1 <<< (cellVal board N p - 1)) |||
          regionMask board N ps := by
      unfold regionMask
      show regionMaskAux board N (if cellVal board N p = 0 then 0
          else 0 ||| 1 <<< (cellVal board N p - 1)) ps = _
      by_cases hp : cellVal board N p = 0
      · rw [if_pos hp, if_pos hp, Nat.zero_or]
      · rw [if_neg hp, if_neg hp, Nat.zero_or, regionMaskAux_or]
    by_cases hp : cellVal board N p = 0
    · have hstep : regionUpd board N ⟨z, e, mk⟩ p = ⟨z + 1, e ++ [p], mk⟩ := by
        unfold regionUpd
        rw [if_pos hp]
      rw [if_pos (by simp [hp]), hstep, ih, hmask, if_pos hp, Nat.zero_or,
        List.length_cons]
      simp only [RegionRec.mk.injEq]
      refine ⟨by omega, ?_, trivial⟩
      rw [List.append_assoc]
      rfl
    · have hstep : regionUpd board N ⟨z, e, mk⟩ p =
          ⟨z, e, mk ||| 1 <<< (cellVal board N p - 1)⟩ := by
        unfold regionUpd
        rw [if_neg hp]
      rw [if_neg (by simp [hp]), hstep, ih, hmask, if_neg hp, Nat.or_assoc]

/-! ### Identifying each scanned region with its cell list -/

/-- Filtering distributes over `flatMap`. -/
theorem filter_flatMap {α β : Type} (l : List α) (g : α → List β) (p : β → Bool) :
    (l.flatMap g).filter p = l.flatMap (fun a => (g a).filter p) := by
  induction l with
  | nil => rfl
  | cons a as ih => rw [List.flatMap_cons, List.flatMap_cons, List.filter_append, ih]

/-- A `flatMap` whose blocks are all empty except at one key collapses to
that block. -/
theorem flatMap_eq_of_single {β : Type} (l : List Nat) (g : Nat → List β) (r : Nat)
    (hg : ∀ x ∈ l, x ≠ r → g x = []) (hnd : l.Nodup) (hmem : r ∈ l) :
    l.flatMap g = g r := by
  induction l with
  | nil => exact absurd hmem (List.not_mem_nil r)
  | cons x xs ih =>
    rw [List.flatMap_cons]
    rcases List.mem_cons.mp hmem with hx | hx
    · have hxs : xs.flatMap g = [] := by
        apply List.flatMap_eq_nil_iff.mpr
        intro y hy
        apply hg y (List.mem_cons_of_mem x hy)
        intro hyr
        have hxx : x ∉ xs := (List.nodup_cons.mp hnd).1
        rw [hyr, hx] at hy
        exact hxx hy
      rw [hxs, List.append_nil, ← hx]
    · have hxr : x ≠ r := by
        intro hEq
        rw [hEq] at hnd
        exact absurd hx ((List.nodup_cons.mp hnd).1)
      rw [hg x (List.mem_cons_self x xs) hxr, List.nil_append]
      exact ih (fun y hy => hg y (List.mem_cons_of_mem x hy)) (List.nodup_cons.mp hnd).2 hx

/-- A `flatMap` of singletons is a `map`. -/
theorem flatMap_singleton_map {α β : Type} (l : List α) (f : α → β) :
    (l.flatMap fun x => [f x]) = l.map f := by
  induction l with
  | nil => rfl
  | cons a as ih => rw [List.flatMap_cons, List.map_cons, ih]; rfl

/-- A `flatMap` guarded by a boolean key test is the `flatMap` over the
filtered list. -/
theorem flatMap_if_filter {α β : Type} (l : List α) (p : α → Bool) (h : α → List β) :
    (l.flatMap fun a => if p a = true then h a else []) = (l.filter p).flatMap h := by
  induction l with
  | nil => rfl
  | cons a as ih =>
    rw [List.flatMap_cons, List.filter_cons]
    by_cases hp : p a = true
    · rw [if_pos hp, if_pos hp, List.flatMap_cons, ih]
    · rw [if_neg hp, if_neg hp, List.nil_append, ih]

/-- Filtering `range N` for one value yields that value alone. -/
theorem range_filter_beq (N c : Nat) (hc : c < N) :
    (List.range N).filter (fun x => x == c) = [c] := by
  induction N with
  | zero => omega
  | succ N ih =>
    rw [List.range_succ, List.filter_append]
    by_cases hcN : c = N
    · have h1 : (List.range N).filter (fun x => x == c) = [] := by
        apply List.filter_eq_nil_iff.mpr
        intro a ha
        have : a < N := List.mem_range.mp ha
        simp
        omega
      rw [h1, List.nil_append]
      subst hcN
      simp
    · have h2 : List.filter (fun x => x == c) [N] = [] := by
        simp [beq_iff_eq]
        omega
      rw [ih (by omega), h2, List.append_nil]

/-- Filtering `range (q*s)` by quotient `t` yields the `t`-th chunk. -/
theorem range_filter_div (s q t : Nat) (hs : 0 < s) (ht : t < q) :
    (List.range (q * s)).filter (fun x => x / s == t) =
      (List.range s).map (fun j => t * s + j) := by
  induction q with
  | zero => omega
  | succ q ih =>
    have hqs : (q + 1) * s = q * s + s := by ring
    rw [hqs, List.range_add, List.filter_append]
    by_cases htq : t = q
    · subst htq
      have h1 : (List.range (t * s)).filter (fun x => x / s == t) = [] := by
        apply List.filter_eq_nil_iff.mpr
        intro a ha
        have ha2 : a < t * s := List.mem_range.mp ha
        have ha3 : a / s < t := (Nat.div_lt_iff_lt_mul hs).mpr ha2
        simp [beq_iff_eq]
        omega
      have h2 : (List.map (fun x => t * s + x) (List.range s)).filter
          (fun x => x / s == t) = List.map (fun x => t * s + x) (List.range s) := by
        rw [List.filter_map]
        have h3 : (List.range s).filter ((fun x => x / s == t) ∘ (fun x => t * s + x)) =
            List.range s := by
          have h4 : ∀ x ∈ List.range s,
              ((fun x => x / s == t) ∘ (fun x => t * s + x)) x = (fun _ => true) x := by
            intro x hx
            have hxs : x < s := List.mem_range.mp hx
            show ((t * s + x) / s == t) = true
            rw [Nat.mul_comm t s, Nat.mul_add_div hs, Nat.div_eq_of_lt hxs, Nat.add_zero]
            simp
          rw [List.filter_congr h4, List.filter_true]
        rw [h3]
      rw [h1, h2, List.nil_append]
    · have htq2 : t < q := by omega
      have h2 : (List.map (fun x => q * s + x) (List.range s)).filter
          (fun x => x / s == t) = [] := by
        rw [List.filter_map]
        have h3 : (List.range s).filter ((fun x => x / s == t) ∘ (fun x => q * s + x)) = [] := by
          apply List.filter_eq_nil_iff.mpr
          intro x hx
          have hxs : x < s := List.mem_range.mp hx
          show ¬ ((q * s + x) / s == t) = true
          rw [Nat.mul_comm q s, Nat.mul_add_div hs, Nat.div_eq_of_lt hxs, Nat.add_zero]
          simp [beq_iff_eq]
          omega
        rw [h3, List.map_nil]
      rw [ih htq2, h2, List.append_nil]

/-- The row-`r` slice of the cell traversal is `rowCells N r`. -/
theorem cellsList_filter_fst (N r : Nat) (hr : r < N) :
    (cellsList N).filter (fun cell => cell.1 == r) = rowCells N r := by
  unfold cellsList
  rw [filter_flatMap]
  have hinner : ∀ x, ((List.range N).map (fun c => (x, c))).filter
      (fun cell => cell.1 == r) = if x == r then rowCells N r else [] := by
    intro x
    rw [List.filter_map]
    by_cases hx : x = r
    · subst hx
      have h4 : ∀ c ∈ List.range N,
          ((fun cell => cell.1 == x) ∘ (fun c => ((x, c) : Nat × Nat))) c = (fun _ => true) c := by
        intro c hc
        simp
      rw [List.filter_congr h4, List.filter_true, if_pos (by simp)]
      rfl
    · have h4 : (List.range N).filter
          ((fun cell => cell.1 == r) ∘ (fun c => ((x, c) : Nat × Nat))) = [] := by
        apply List.filter_eq_nil_iff.mpr
        intro c hc
        simp [hx]
      rw [h4, List.map_nil, if_neg (by simp [hx])]
  have hfun : (fun x => ((List.range N).map (fun c => (x, c))).filter
      (fun cell => cell.1 == r)) = (fun x => if x == r then rowCells N r else []) :=
    funext hinner
  rw [hfun, flatMap_eq_of_single _ _ r ?_ (List.nodup_range N) (List.mem_range.mpr hr)]
  · rw [if_pos (by simp)]
  · intro x hx hxr
    rw [if_neg (by simp [hxr])]

/-- The column-`c` slice of the cell traversal is `colCells N c`. -/
theorem cellsList_filter_snd (N c : Nat) (hc : c < N) :
    (cellsList N).filter (fun cell => cell.2 == c) = colCells N c := by
  unfold cellsList
  rw [filter_flatMap]
  have hinner : ∀ x : Nat, ((List.range N).map (fun c2 => (x, c2))).filter
      (fun cell => cell.2 == c) = [((x, c) : Nat × Nat)] := by
    intro x
    rw [List.filter_map]
    have h4 : ((List.range N).filter
        ((fun cell => cell.2 == c) ∘ (fun c2 => ((x, c2) : Nat × Nat)))) =
        (List.range N).filter (fun c2 => c2 == c) := by
      apply List.filter_congr
      intro c2 hc2
      rfl
    rw [h4, range_filter_beq N c hc]
    rfl
  have hfun : (fun x => ((List.range N).map (fun c2 => (x, c2))).filter
      (fun cell => cell.2 == c)) = (fun x => [((x, c) : Nat × Nat)]) := funext hinner
  rw [hfun, flatMap_singleton_map]
  rfl

/-- The block-`b` slice of the cell traversal is `blockCells N n m b`. -/
theorem cellsList_filter_block (N n m b : Nat) (hn : 0 < n) (hm : 0 < m)
    (hN : N = n * m) (hb : b < N) :
    (cellsList N).filter (fun cell => blockIndex N n m cell.1 cell.2 == b) =
      blockCells N n m b := by
  have hNm : N / m = n := by rw [hN, Nat.mul_div_cancel _ hm]
  have hbC : b % n < n := Nat.mod_lt _ hn
  have hbR : b / n < m := by
    apply (Nat.div_lt_iff_lt_mul hn).mpr
    rw [Nat.mul_comm m n, ← hN]
    exact hb
  have hbsplit : b / n * n + b % n = b := by
    rw [Nat.mul_comm (b / n) n]
    exact Nat.div_add_mod b n
  unfold cellsList
  rw [filter_flatMap]
  have hinner : ∀ x : Nat, ((List.range N).map (fun c2 => (x, c2))).filter
      (fun cell => blockIndex N n m cell.1 cell.2 == b) =
      if x / n == b / n then
        (List.range m).map (fun j => ((x, b % n * m + j) : Nat × Nat)) else [] := by
    intro x
    rw [List.filter_map]
    have h4 : ((List.range N).filter
        ((fun cell => blockIndex N n m cell.1 cell.2 == b) ∘ (fun c2 => ((x, c2) : Nat × Nat)))) =
        (List.range N).filter (fun c2 => (x / n == b / n) && (c2 / m == b % n)) := by
      apply List.filter_congr
      intro c2 hc2
      have hc2N : c2 < N := List.mem_range.mp hc2
      have hc2m : c2 / m < n := by
        apply (Nat.div_lt_iff_lt_mul hm).mpr
        rw [← hN]
        exact hc2N
      show (blockIndex N n m x c2 == b) = _
      unfold blockIndex
      rw [hNm]
      by_cases hEq : x / n * n + c2 / m = b
      · have h5 := rowMajor_inj hc2m hbC (by rw [hEq, hbsplit])
        rw [show (x / n * n + c2 / m == b) = true by simp [hEq]]
        rw [h5.1, h5.2]
        simp
      · rw [show (x / n * n + c2 / m == b) = false by simp [hEq]]
        by_cases h6 : x / n = b / n
        · by_cases h7 : c2 / m = b % n
          · exact absurd (by rw [h6, h7, hbsplit]) hEq
          · simp [h7]
        · simp [h6]
    rw [h4]
    by_cases h8 : x / n = b / n
    · have h9 : ((List.range N).filter
          (fun c2 => (x / n == b / n) && (c2 / m == b % n))) =
          (List.range N).filter (fun c2 => c2 / m == b % n) := by
        apply List.filter_congr
        intro c2 hc2
        simp [h8]
      rw [h9, if_pos (by simp [h8])]
      have h10 : (List.range N).filter (fun c2 => c2 / m == b % n) =
          (List.range m).map (fun j => b % n * m + j) := by
        have h11 : N = n * m := hN
        rw [h11, range_filter_div m n (b % n) hm hbC]
      rw [h10, List.map_map]
      rfl
    · have h9 : ((List.range N).filter
          (fun c2 => (x / n == b / n) && (c2 / m == b % n))) = [] := by
        apply List.filter_eq_nil_iff.mpr
        intro c2 hc2
        simp [h8]
      rw [h9, List.map_nil, if_neg (by simp [h8])]
  have hfun : (fun x => ((List.range N).map (fun c2 => (x, c2))).filter
      (fun cell => blockIndex N n m cell.1 cell.2 == b)) =
      (fun x => if x / n == b / n then
        (List.range m).map (fun j => ((x, b % n * m + j) : Nat × Nat)) else []) :=
    funext hinner
  rw [hfun, flatMap_if_filter]
  have h12 : (List.range N).filter (fun x => x / n == b / n) =
      (List.range n).map (fun i => b / n * n + i) := by
    rw [hN, Nat.mul_comm n m, range_filter_div n m (b / n) hn hbR]
  rw [h12, List.flatMap_map]
  unfold blockCells
  rw [hNm]

/-- The scanned row record `i` is exactly the fold over `rowCells N i`. -/
theorem rows_record (board : List Nat) (N n m i : Nat) (hi : i < N) :
    (get_region_status board N n m).rows.getD i initRec =
      ⟨((rowCells N i).filter (fun p => cellVal board N p == 0)).length,
       (rowCells N i).filter (fun p => cellVal board N p == 0),
       regionMask board N (rowCells N i)⟩ := by
  unfold get_region_status
  rw [scan_rows_foldl]
  have harr : i < (List.replicate N initRec).length := by
    rw [List.length_replicate]; exact hi
  rw [foldl_set_key (regionUpd board N) Prod.fst (cellsList N) _ i harr]
  have hrep : (List.replicate N initRec).getD i initRec = initRec := by
    rw [List.getD_eq_getElem?_getD, List.getElem?_replicate, if_pos hi]
    rfl
  rw [hrep, cellsList_filter_fst N i hi,
    show initRec = (⟨0, [], 0⟩ : RegionRec) from rfl,
    regionUpd_foldl board N (rowCells N i) 0 [] 0,
    Nat.zero_add, List.nil_append, Nat.zero_or]

/-- The scanned column record `i` is exactly the fold over `colCells N i`. -/
theorem cols_record (board : List Nat) (N n m i : Nat) (hi : i < N) :
    (get_region_status board N n m).cols.getD i initRec =
      ⟨((colCells N i).filter (fun p => cellVal board N p == 0)).length,
       (colCells N i).filter (fun p => cellVal board N p == 0),
       regionMask board N (colCells N i)⟩ := by
  unfold get_region_status
  rw [scan_cols_foldl]
  have harr : i < (List.replicate N initRec).length := by
    rw [List.length_replicate]; exact hi
  rw [foldl_set_key (regionUpd board N) Prod.snd (cellsList N) _ i harr]
  have hrep : (List.replicate N initRec).getD i initRec = initRec := by
    rw [List.getD_eq_getElem?_getD, List.getElem?_replicate, if_pos hi]
    rfl
  rw [hrep, cellsList_filter_snd N i hi,
    show initRec = (⟨0, [], 0⟩ : RegionRec) from rfl,
    regionUpd_foldl board N (colCells N i) 0 [] 0,
    Nat.zero_add, List.nil_append, Nat.zero_or]

/-- The scanned block record `i` is exactly the fold over `blockCells N n m i`
(valid tiling). -/
theorem blocks_record (board : List Nat) (N n m i : Nat)
    (hn : 0 < n) (hm : 0 < m) (hN : N = n * m) (hi : i < N) :
    (get_region_status board N n m).blocks.getD i initRec =
      ⟨((blockCells N n m i).filter (fun p => cellVal board N p == 0)).length,
       (blockCells N n m i).filter (fun p => cellVal board N p == 0),
       regionMask board N (blockCells N n m i)⟩ := by
  unfold get_region_status
  rw [scan_blocks_foldl]
  have harr : i < (List.replicate N initRec).length := by
    rw [List.length_replicate]; exact hi
  rw [foldl_set_key (regionUpd board N) (fun cell => blockIndex N n m cell.1 cell.2)
    (cellsList N) _ i harr]
  have hrep : (List.replicate N initRec).getD i initRec = initRec := by
    rw [List.getD_eq_getElem?_getD, List.getElem?_replicate, if_pos hi]
    rfl
  rw [hrep, cellsList_filter_block N n m i hn hm hN hi,
    show initRec = (⟨0, [], 0⟩ : RegionRec) from rfl,
    regionUpd_foldl board N (blockCells N n m i) 0 [] 0,
    Nat.zero_add, List.nil_append, Nat.zero_or]

/-! ### Popcount and the C6 scanner invariants -/

/-- Population count of a natural number: the number of set bits (all set
bits of `x` lie below `x`). -/
def popcount (x : Nat) : Nat :=
  ((Finset.range x).filter (fun i => x.testBit i = true)).card

/-- A set bit of `x` lies strictly below `x`. -/
theorem lt_of_testBit_eq_true {x i : Nat} (h : x.testBit i = true) : i < x := by
  by_contra hge
  push_neg at hge
  have h2 : x < 2 ^ i := Nat.lt_of_le_of_lt hge (Nat.lt_two_pow i)
  rw [Nat.testBit_lt_two_pow h2] at h
  exact Bool.false_ne_true h

/-- `popcount` can be computed over any bit window containing `x`. -/
theorem popcount_eq_card (x B : Nat) (h : x < 2 ^ B) :
    popcount x = ((Finset.range B).filter (fun i => x.testBit i = true)).card := by
  unfold popcount
  congr 1
  apply Finset.ext
  intro i
  simp only [Finset.mem_filter, Finset.mem_range]
  constructor
  · rintro ⟨hix, hbit⟩
    refine ⟨?_, hbit⟩
    have h2 : 2 ^ i ≤ x := by
      by_contra hlt
      push_neg at hlt
      rw [Nat.testBit_lt_two_pow hlt] at hbit
      exact Bool.false_ne_true hbit
    have h3 : (2 : Nat) ^ i < 2 ^ B := Nat.lt_of_le_of_lt h2 h
    exact (Nat.pow_lt_pow_iff_right (by omega)).mp h3
  · rintro ⟨hiB, hbit⟩
    exact ⟨lt_of_testBit_eq_true hbit, hbit⟩

/-- Setting an unset bit increases the popcount by one. -/
theorem popcount_lor_two_pow (mk k : Nat) (h : mk.testBit k = false) :
    popcount (mk ||| 2 ^ k) = popcount mk + 1 := by
  set B := mk + k + 1 with hB
  have hmkB : mk < 2 ^ B := by
    have h1 : mk < 2 ^ mk := Nat.lt_two_pow mk
    have h2 : (2 : Nat) ^ mk ≤ 2 ^ B := Nat.pow_le_pow_right (by omega) (by omega)
    omega
  have hkB : k < B := by omega
  have h2kB : (2 : Nat) ^ k < 2 ^ B := (Nat.pow_lt_pow_iff_right (by omega)).mpr hkB
  have hor : mk ||| 2 ^ k < 2 ^ B := Nat.or_lt_two_pow hmkB h2kB
  rw [popcount_eq_card _ B hor, popcount_eq_card mk B hmkB]
  have hset : (Finset.range B).filter (fun i => (mk ||| 2 ^ k).testBit i = true) =
      insert k ((Finset.range B).filter (fun i => mk.testBit i = true)) := by
    apply Finset.ext
    intro i
    simp only [Finset.mem_filter, Finset.mem_range, Finset.mem_insert,
      Nat.testBit_lor, Nat.testBit_two_pow, Bool.or_eq_true, decide_eq_true_eq]
    constructor
    · rintro ⟨hiB, hbit | hki⟩
      · exact Or.inr ⟨hiB, hbit⟩
      · exact Or.inl hki.symm
    · rintro (hik | ⟨hiB, hbit⟩)
      · exact ⟨by omega, Or.inr hik.symm⟩
      · exact ⟨hiB, Or.inl hbit⟩
  rw [hset, Finset.card_insert_of_not_mem]
  simp only [Finset.mem_filter, Finset.mem_range, not_and]
  intro _
  rw [h]
  exact Bool.false_ne_true

/-- Or-folding one bit per value over a list of distinct nonzero values, none
of whose bits are set in the accumulator, adds the list length to the
popcount. -/
theorem popcount_fold_or (vals : List Nat) :
    ∀ A : Nat, (∀ v ∈ vals, v ≠ 0) → vals.Pairwise (· ≠ ·) →
    (∀ v ∈ vals, A.testBit (v - 1) = false) →
    popcount (vals.foldl (fun a v => a ||| 1 <<< (v - 1)) A) = popcount A + vals.length := by
  induction vals with
  | nil => intro A _ _ _; rfl
  | cons v vs ih =>
    intro A hnz hpw hbit
    rw [List.foldl_cons, List.length_cons]
    have hshift : A ||| 1 <<< (v - 1) = A ||| 2 ^ (v - 1) := by
      rw [Nat.shiftLeft_eq, Nat.one_mul]
    rw [hshift]
    have hA2 : popcount (A ||| 2 ^ (v - 1)) = popcount A + 1 :=
      popcount_lor_two_pow A (v - 1) (hbit v (List.mem_cons_self v vs))
    have hvs : popcount (vs.foldl (fun a v => a ||| 1 <<< (v - 1)) (A ||| 2 ^ (v - 1))) =
        popcount (A ||| 2 ^ (v - 1)) + vs.length := by
      apply ih
      · intro w hw
        exact hnz w (List.mem_cons_of_mem v hw)
      · exact (List.pairwise_cons.mp hpw).2
      · intro w hw
        rw [Nat.testBit_lor, hbit w (List.mem_cons_of_mem v hw),
          Nat.testBit_two_pow]
        have hvw : v ≠ w := (List.pairwise_cons.mp hpw).1 w hw
        have hv0 : v ≠ 0 := hnz v (List.mem_cons_self v vs)
        have hw0 : w ≠ 0 := hnz w (List.mem_cons_of_mem v hw)
        have : v - 1 ≠ w - 1 := by omega
        simp [this]
    rw [hvs, hA2]
    omega

/-- The nonzero values of a region's cell list, in traversal order. -/
def regionValsNonzero (board : List Nat) (N : Nat) (L : List (Nat × Nat)) : List Nat :=
  (L.filter (fun p => cellVal board N p != 0)).map (fun p => cellVal board N p)

/-- The region mask is the or-fold of the region's nonzero value bits. -/
theorem regionMask_eq_vals_fold (board : List Nat) (N : Nat) :
    ∀ (L : List (Nat × Nat)) (a : Nat),
    regionMaskAux board N a L =
      (regionValsNonzero board N L).foldl (fun acc v => acc ||| 1 <<< (v - 1)) a := by
  intro L
  induction L with
  | nil => intro a; rfl
  | cons p ps ih =>
    intro a
    unfold regionValsNonzero
    rw [List.filter_cons]
    show regionMaskAux board N (if cellVal board N p = 0 then a
        else a ||| 1 <<< (cellVal board N p - 1)) ps = _
    by_cases hp : cellVal board N p = 0
    · rw [if_pos hp, if_neg (by simp [hp]), ih]
      rfl
    · rw [if_neg hp, if_pos (by simp [hp]), List.map_cons, List.foldl_cons, ih]
      rfl

/-- Splitting a list by a predicate splits its length. -/
theorem filter_length_split {α : Type} (p : α → Bool) (L : List α) :
    (L.filter p).length + (L.filter (fun a => ! p a)).length = L.length := by
  induction L with
  | nil => rfl
  | cons a as ih =>
    rw [List.filter_cons, List.filter_cons]
    by_cases hp : p a = true
    · rw [if_pos hp, if_neg (by simp [hp]), List.length_cons, List.length_cons]
      omega
    · rw [if_neg hp, if_pos (by simp [hp]), List.length_cons, List.length_cons]
      omega

/-- `zeros + popcount used_mask = length` for the fold over a duplicate-free
region cell list. -/
theorem region_zeros_popcount (board : List Nat) (N : Nat) (L : List (Nat × Nat))
    (hnd : (regionValsNonzero board N L).Nodup) :
    ((L.filter (fun p => cellVal board N p == 0)).length : Nat) +
      popcount (regionMask board N L) = L.length := by
  have hmask : regionMask board N L =
      (regionValsNonzero board N L).foldl (fun acc v => acc ||| 1 <<< (v - 1)) 0 :=
    regionMask_eq_vals_fold board N L 0
  have hpop : popcount ((regionValsNonzero board N L).foldl
      (fun acc v => acc ||| 1 <<< (v - 1)) 0) =
      popcount 0 + (regionValsNonzero board N L).length := by
    apply popcount_fold_or
    · intro v hv
      unfold regionValsNonzero at hv
      obtain ⟨p, hp, hpv⟩ := List.mem_map.mp hv
      have := (List.mem_filter.mp hp).2
      rw [← hpv]
      simpa using this
    · exact hnd
    · intro v _
      exact Nat.zero_testBit (v - 1)
  have hzero : popcount 0 = 0 := rfl
  have hlen : (regionValsNonzero board N L).length =
      (L.filter (fun p => cellVal board N p != 0)).length := by
    unfold regionValsNonzero
    rw [List.length_map]
  have hsplit := filter_length_split (fun p => cellVal board N p == 0) L
  have hne : (L.filter (fun p => ! (cellVal board N p == 0))).length =
      (L.filter (fun p => cellVal board N p != 0)).length := rfl
  rw [hmask, hpop, hzero, hlen]
  omega

/-- Length of a block's cell list under a valid tiling. -/
theorem blockCells_length (N n m b : Nat) : (blockCells N n m b).length = n * m := by
  unfold blockCells
  rw [List.length_flatMap]
  have hlen : List.map (List.length ∘ (fun i => (List.range m).map
      (fun j => (((b / (N / m)) * n + i, (b % (N / m)) * m + j) : Nat × Nat))))
      (List.range n) = List.replicate n m := by
    have hconst : (List.length ∘ (fun i => (List.range m).map
        (fun j => (((b / (N / m)) * n + i, (b % (N / m)) * m + j) : Nat × Nat)))) =
        Function.const Nat m := by
      funext i
      show ((List.range m).map _).length = m
      rw [List.length_map, List.length_range]
    rw [hconst, List.map_const, List.length_range]
  rw [hlen, List.sum_replicate, smul_eq_mul]

/-- Raw form of the scanned block record `i`: the fold over the cells the
scanner sent to block `i`, whatever the tiling. -/
theorem blocks_record_raw (board : List Nat) (N n m i : Nat) (hi : i < N) :
    (get_region_status board N n m).blocks.getD i initRec =
      ⟨(((cellsList N).filter (fun cell => blockIndex N n m cell.1 cell.2 == i)).filter
          (fun p => cellVal board N p == 0)).length,
       ((cellsList N).filter (fun cell => blockIndex N n m cell.1 cell.2 == i)).filter
          (fun p => cellVal board N p == 0),
       regionMask board N
         ((cellsList N).filter (fun cell => blockIndex N n m cell.1 cell.2 == i))⟩ := by
  unfold get_region_status
  rw [scan_blocks_foldl]
  have harr : i < (List.replicate N initRec).length := by
    rw [List.length_replicate]; exact hi
  rw [foldl_set_key (regionUpd board N) (fun cell => blockIndex N n m cell.1 cell.2)
    (cellsList N) _ i harr]
  have hrep : (List.replicate N initRec).getD i initRec = initRec := by
    rw [List.getD_eq_getElem?_getD, List.getElem?_replicate, if_pos hi]
    rfl
  rw [hrep, show initRec = (⟨0, [], 0⟩ : RegionRec) from rfl,
    regionUpd_foldl, Nat.zero_add, List.nil_append, Nat.zero_or]

/-- C6: on a validly tiled board whose rows, columns and blocks hold no
duplicate values, every one of the 3N scanned region records satisfies
`zeros + popcount used_mask = N`; and `empty_indices.length = zeros` holds
for every board and dimensions whatsoever. -/
theorem region_scanner_invariants (board : List Nat) (N n m : Nat)
    (hn : 0 < n) (hm : 0 < m) (hN : N = n * m)
    (hdup : ∀ i < N, (regionValsNonzero board N (rowCells N i)).Nodup ∧
      (regionValsNonzero board N (colCells N i)).Nodup ∧
      (regionValsNonzero board N (blockCells N n m i)).Nodup) :
    (∀ (board2 : List Nat) (N2 n2 m2 i : Nat), i < N2 →
      ((get_region_status board2 N2 n2 m2).rows.getD i initRec).empty_indices.length =
        ((get_region_status board2 N2 n2 m2).rows.getD i initRec).zeros ∧
      ((get_region_status board2 N2 n2 m2).cols.getD i initRec).empty_indices.length =
        ((get_region_status board2 N2 n2 m2).cols.getD i initRec).zeros ∧
      ((get_region_status board2 N2 n2 m2).blocks.getD i initRec).empty_indices.length =
        ((get_region_status board2 N2 n2 m2).blocks.getD i initRec).zeros) ∧
    (∀ i < N,
      ((get_region_status board N n m).rows.getD i initRec).zeros +
        popcount ((get_region_status board N n m).rows.getD i initRec).used_mask = N ∧
      ((get_region_status board N n m).cols.getD i initRec).zeros +
        popcount ((get_region_status board N n m).cols.getD i initRec).used_mask = N ∧
      ((get_region_status board N n m).blocks.getD i initRec).zeros +
        popcount ((get_region_status board N n m).blocks.getD i initRec).used_mask = N) := by
  constructor
  · intro board2 N2 n2 m2 i hi
    refine ⟨?_, ?_, ?_⟩
    · rw [rows_record board2 N2 n2 m2 i hi]
    · rw [cols_record board2 N2 n2 m2 i hi]
    · rw [blocks_record_raw board2 N2 n2 m2 i hi]
  · intro i hi
    obtain ⟨hdr, hdc, hdb⟩ := hdup i hi
    refine ⟨?_, ?_, ?_⟩
    · rw [rows_record board N n m i hi]
      have := region_zeros_popcount board N (rowCells N i) hdr
      show _ + popcount (regionMask board N (rowCells N i)) = N
      rw [this]
      unfold rowCells
      rw [List.length_map, List.length_range]
    · rw [cols_record board N n m i hi]
      have := region_zeros_popcount board N (colCells N i) hdc
      show _ + popcount (regionMask board N (colCells N i)) = N
      rw [this]
      unfold colCells
      rw [List.length_map, List.length_range]
    · rw [blocks_record board N n m i hn hm hN hi]
      have := region_zeros_popcount board N (blockCells N n m i) hdb
      show _ + popcount (regionMask board N (blockCells N n m i)) = N
      rw [this, blockCells_length, hN]

/-- Witness for `region_scanner_invariants` on a concrete 4×4 board. -/
theorem region_scanner_invariants_witness :
    ((get_region_status [0,2,3,4, 3,4,1,2, 0,0,0,0, 0,0,0,0] 4 2 2).rows.getD 0
      initRec).zeros +
      popcount ((get_region_status [0,2,3,4, 3,4,1,2, 0,0,0,0, 0,0,0,0] 4 2 2).rows.getD 0
      initRec).used_mask = 4 :=
  ((region_scanner_invariants [0,2,3,4, 3,4,1,2, 0,0,0,0, 0,0,0,0] 4 2 2
    (by decide) (by decide) (by decide) (by decide)).2 0 (by decide)).1

/-! ### Embedding of the heuristic evaluator and `SudokuAI.evaluate_board` -/

/-- Embedding of `Heuristics.calculate_sniping_score`: walk all 3N region
records, scoring the regions with exactly one empty cell by who can reach
that cell (`W_SNIPE = 100`, `W_DEFEND = 120`, contest `W_SNIPE / 2`). -/
def calculate_sniping_score (analysis : RegionStatus)
    (my_allowed opp_allowed : List (Nat × Nat)) : Rat :=
  let all_regions := analysis.rows ++ analysis.cols ++ analysis.blocks
  all_regions.foldl (fun score region =>
    if region.zeros = 1 then
      let target_cell := region.empty_indices.headD (0, 0)
      let can_i_reach := target_cell ∈ my_allowed
      let can_opp_reach := target_cell ∈ opp_allowed
      if can_i_reach ∧ ¬ can_opp_reach then score + 100
      else if can_opp_reach ∧ ¬ can_i_reach then score - 120
      else if can_i_reach ∧ can_opp_reach then score + 100 / 2
      else score
    else score) 0

/-- Embedding of `Heuristics.calculate_mobility_score` (`W_MOBILITY = 2`). -/
def calculate_mobility_score (board : List Nat) (N : Nat)
    (my_allowed opp_allowed : List (Nat × Nat)) : Rat :=
  let my_count := (my_allowed.filter (fun p => board.getD (p.1 * N + p.2) 0 == 0)).length
  let opp_count := (opp_allowed.filter (fun p => board.getD (p.1 * N + p.2) 0 == 0)).length
  2 * ((my_count : Rat) - (opp_count : Rat))

/-- Embedding of `Heuristics._count_valid_options`: zero bits of the mask
among the low `N` bits. -/
def count_valid_options (used_mask N : Nat) : Nat :=
  ((List.range N).filter (fun i => used_mask &&& (1 <<< i) == 0)).length

/-- Embedding of `Heuristics.calculate_lrv_score`. -/
def calculate_lrv_score (board : List Nat) (analysis : RegionStatus) (N n m : Nat)
    (my_allowed : List (Nat × Nat)) : Rat :=
  my_allowed.foldl (fun score rc =>
    if board.getD (rc.1 * N + rc.2) 0 ≠ 0 then score
    else
      let b_idx := (rc.1 / n) * (N / m) + rc.2 / m
      let r_mask := (analysis.rows.getD rc.1 initRec).used_mask
      let c_mask := (analysis.cols.getD rc.2 initRec).used_mask
      let b_mask := (analysis.blocks.getD b_idx initRec).used_mask
      let total_mask := r_mask ||| c_mask ||| b_mask
      let options := count_valid_options total_mask N
      if options = 1 then score + 5
      else if options = 2 then score + 2
      else if options > 2 then score + 1 / (options : Rat)
      else score - 10) 0

/-- Embedding of `Heuristics.evaluate_board`: scanner plus the three terms. -/
def heuristics_evaluate_board (board : List Nat) (N n m : Nat)
    (my_allowed opp_allowed : List (Nat × Nat)) : Rat :=
  let analysis := get_region_status board N n m
  let sniping := calculate_sniping_score analysis my_allowed opp_allowed
  let mobility := calculate_mobility_score board N my_allowed opp_allowed
  let lrv := calculate_lrv_score board analysis N n m my_allowed
  sniping + mobility + lrv

/-- Embedding of `SudokuAI.evaluate_board`, kept as a state-passing function:
the temporary reassignments of `current_player` used to read both players'
allowed squares are performed and the final state is returned alongside the
scalar (`W_REAL_SCORE = 1000`). -/
def evaluate_board_run (gs : GameState) (my_player_id : Nat) : Rat × GameState :=
  let my_score : Int := if my_player_id = 1 then gs.scores.1 else gs.scores.2
  let opp_score : Int := if my_player_id = 1 then gs.scores.2 else gs.scores.1
  let score_diff : Rat := ((my_score - opp_score : Int) : Rat) * 1000
  let org_player := gs.current_player
  let gs1 := { gs with current_player := my_player_id }
  let p1_allowed := gs1.player_squares
  let gs2 := { gs1 with current_player := 3 - my_player_id }
  let p2_allowed := gs2.player_squares
  let gs3 := { gs2 with current_player := org_player }
  let heuristic_val := heuristics_evaluate_board gs3.board.squares gs3.board.N
    gs3.board.n gs3.board.m p1_allowed p2_allowed
  (score_diff + heuristic_val, gs3)

/-- The scalar computed by `SudokuAI.evaluate_board`. -/
def evaluate_board (gs : GameState) (my_player_id : Nat) : Rat :=
  (evaluate_board_run gs my_player_id).1

/-! ### C9: `evaluate_board` restores the state it borrows -/

/-- C9: `evaluate_board` is pure: the `current_player` reassignments are
undone — the state coming out of the run is exactly the input state — and
the scalar is the deterministic function `evaluate_board` of the state and
the player identity. -/
theorem evaluate_board_run_pure (gs : GameState) (my_player_id : Nat) :
    evaluate_board_run gs my_player_id = (evaluate_board gs my_player_id, gs) :=
  rfl

/-! ### Support for C8: the evaluator formula -/

/-- Keyed set-folds preserve the array length. -/
theorem foldl_set_length (upd : RegionRec → (Nat × Nat) → RegionRec)
    (key : (Nat × Nat) → Nat) :
    ∀ (l : List (Nat × Nat)) (arr : List RegionRec),
    (l.foldl (fun a cell => a.set (key cell)
      (upd (a.getD (key cell) initRec) cell)) arr).length = arr.length := by
  intro l
  induction l with
  | nil => intro arr; rfl
  | cons cell cs ih =>
    intro arr
    rw [List.foldl_cons, ih, List.length_set]

/-- The scanner produces `N` row records. -/
theorem rows_length (board : List Nat) (N n m : Nat) :
    (get_region_status board N n m).rows.length = N := by
  unfold get_region_status
  rw [scan_rows_foldl, foldl_set_length (regionUpd board N) Prod.fst,
    List.length_replicate]

/-- The scanner produces `N` column records. -/
theorem cols_length (board : List Nat) (N n m : Nat) :
    (get_region_status board N n m).cols.length = N := by
  unfold get_region_status
  rw [scan_cols_foldl, foldl_set_length (regionUpd board N) Prod.snd,
    List.length_replicate]

/-- The scanner produces `N` block records. -/
theorem blocks_length (board : List Nat) (N n m : Nat) :
    (get_region_status board N n m).blocks.length = N := by
  unfold get_region_status
  rw [scan_blocks_foldl,
    foldl_set_length (regionUpd board N) (fun cell => blockIndex N n m cell.1 cell.2),
    List.length_replicate]

/-- The record a region's cell list determines. -/
def regionRecordOf (board : List Nat) (N : Nat) (L : List (Nat × Nat)) : RegionRec :=
  ⟨(L.filter (fun p => cellVal board N p == 0)).length,
   L.filter (fun p => cellVal board N p == 0),
   regionMask board N L⟩

/-- The scanner's row list, as a map over row indices. -/
theorem rows_list_eq (board : List Nat) (N n m : Nat) :
    (get_region_status board N n m).rows =
      (List.range N).map (fun i => regionRecordOf board N (rowCells N i)) := by
  apply List.ext_getElem
  · rw [rows_length, List.length_map, List.length_range]
  · intro i h1 h2
    have hi : i < N := by rwa [rows_length] at h1
    have hgd := rows_record board N n m i hi
    rw [List.getD_eq_getElem?_getD, List.getElem?_eq_getElem h1, Option.getD_some] at hgd
    rw [hgd, List.getElem_map, List.getElem_range]
    rfl

/-- The scanner's column list, as a map over column indices. -/
theorem cols_list_eq (board : List Nat) (N n m : Nat) :
    (get_region_status board N n m).cols =
      (List.range N).map (fun i => regionRecordOf board N (colCells N i)) := by
  apply List.ext_getElem
  · rw [cols_length, List.length_map, List.length_range]
  · intro i h1 h2
    have hi : i < N := by rwa [cols_length] at h1
    have hgd := cols_record board N n m i hi
    rw [List.getD_eq_getElem?_getD, List.getElem?_eq_getElem h1, Option.getD_some] at hgd
    rw [hgd, List.getElem_map, List.getElem_range]
    rfl

/-- The scanner's block list, as a map over block indices (valid tiling). -/
theorem blocks_list_eq (board : List Nat) (N n m : Nat)
    (hn : 0 < n) (hm : 0 < m) (hN : N = n * m) :
    (get_region_status board N n m).blocks =
      (List.range N).map (fun i => regionRecordOf board N (blockCells N n m i)) := by
  apply List.ext_getElem
  · rw [blocks_length, List.length_map, List.length_range]
  · intro i h1 h2
    have hi : i < N := by rwa [blocks_length] at h1
    have hgd := blocks_record board N n m i hn hm hN hi
    rw [List.getD_eq_getElem?_getD, List.getElem?_eq_getElem h1, Option.getD_some] at hgd
    rw [hgd, List.getElem_map, List.getElem_range]
    rfl

/-- An accumulating fold of additions is the initial value plus a sum. -/
theorem foldl_add_shift {α : Type} (g : α → Rat) :
    ∀ (l : List α) (a : Rat), l.foldl (fun s x => s + g x) a = a + (l.map g).sum := by
  intro l
  induction l with
  | nil => intro a; simp
  | cons x xs ih =>
    intro a
    rw [List.foldl_cons, ih, List.map_cons, List.sum_cons]
    ring

/-- A guarded accumulating fold is the initial value plus a filtered sum. -/
theorem foldl_if_add {α : Type} (q : α → Bool) (g : α → Rat) :
    ∀ (l : List α) (a : Rat),
    l.foldl (fun s x => if q x = true then s + g x else s) a =
      a + ((l.filter q).map g).sum := by
  intro l
  induction l with
  | nil => intro a; simp
  | cons x xs ih =>
    intro a
    rw [List.foldl_cons, List.filter_cons]
    by_cases hq : q x = true
    · rw [if_pos hq, if_pos hq, ih, List.map_cons, List.sum_cons]
      ring
    · rw [if_neg hq, if_neg hq, ih]

/-- A masked-out bit test: `mask &&& (1 <<< i) == 0` is the negated test bit. -/
theorem land_shift_eq_zero (mask i : Nat) :
    (mask &&& (1 <<< i) == 0) = ! mask.testBit i := by
  rw [Nat.shiftLeft_eq, Nat.one_mul, Nat.and_two_pow]
  rcases h : mask.testBit i
  · simp
  · have h2 : (0 : Nat) < 2 ^ i := Nat.pos_pow_of_pos i (by omega)
    simp

/-- Cardinality of a filtered `Finset.range` as a filtered-list length. -/
theorem card_filter_range_eq_length (n : Nat) (p : Nat → Prop) [DecidablePred p] :
    ((Finset.range n).filter p).card =
      ((List.range n).filter (fun i => decide (p i))).length := by
  induction n with
  | zero => rfl
  | succ n ih =>
    rw [Finset.range_succ, List.range_succ, List.filter_append, Finset.filter_insert]
    by_cases hp : p n
    · rw [if_pos hp, Finset.card_insert_of_not_mem (by simp), ih,
        List.length_append]
      have : (List.filter (fun i => decide (p i)) [n]).length = 1 := by
        simp [hp]
      omega
    · rw [if_neg hp, ih, List.length_append]
      have : (List.filter (fun i => decide (p i)) [n]).length = 0 := by
        simp [hp]
      omega

/-- `count_valid_options` is `N` minus the popcount, for masks below `2^N`. -/
theorem count_valid_options_eq (mask N : Nat) (h : mask < 2 ^ N) :
    count_valid_options mask N = N - popcount mask := by
  unfold count_valid_options
  have h1 : ((List.range N).filter (fun i => mask &&& (1 <<< i) == 0)) =
      ((List.range N).filter (fun i => decide (¬ mask.testBit i = true))) := by
    apply List.filter_congr
    intro i _
    rw [land_shift_eq_zero]
    rcases hb : mask.testBit i
    · simp
    · simp
  rw [h1, ← card_filter_range_eq_length]
  have h2 := Finset.filter_card_add_filter_neg_card_eq_card
    (s := Finset.range N) (fun i => mask.testBit i = true)
  rw [Finset.card_range] at h2
  rw [popcount_eq_card mask N h]
  omega

/-- Bound for the spec block index under a valid tiling. -/
theorem blockIndex_lt (N n m r c : Nat) (hn : 0 < n) (hm : 0 < m)
    (hN : N = n * m) (hr : r < N) (hc : c < N) :
    blockIndex N n m r c < N := by
  have hNm : N / m = n := by rw [hN, Nat.mul_div_cancel _ hm]
  have hrn : r / n < m := by
    apply (Nat.div_lt_iff_lt_mul hn).mpr
    rw [Nat.mul_comm m n, ← hN]
    exact hr
  have hcm : c / m < n := by
    apply (Nat.div_lt_iff_lt_mul hm).mpr
    rw [← hN]
    exact hc
  unfold blockIndex
  rw [hNm, hN]
  have h1 : r / n * n ≤ (m - 1) * n := Nat.mul_le_mul_right _ (by omega)
  have h2 : (m - 1) * n + n = n * m := by
    have h3 : m - 1 + 1 = m := by omega
    calc (m - 1) * n + n = (m - 1 + 1) * n := by ring
      _ = n * m := by rw [h3]; ring
  omega

/-- All set bits of a region mask lie below `N` when the board values do. -/
theorem regionMask_lt_two_pow (board : List Nat) (N : Nat)
    (hvals : ∀ v ∈ board, v ≤ N) (L : List (Nat × Nat)) :
    regionMask board N L < 2 ^ N := by
  have hcell : ∀ p : Nat × Nat, cellVal board N p ≠ 0 → cellVal board N p ≤ N := by
    intro p hp
    unfold cellVal at hp ⊢
    rcases Nat.lt_or_ge (p.1 * N + p.2) board.length with hlt | hge
    · rw [List.getD_eq_getElem?_getD, List.getElem?_eq_getElem hlt, Option.getD_some]
      exact hvals _ (List.getElem_mem hlt)
    · rw [List.getD_eq_getElem?_getD, List.getElem?_eq_none (by omega),
        Option.getD_none] at hp
      exact absurd rfl hp
  unfold regionMask
  have haux : ∀ (L2 : List (Nat × Nat)) (a : Nat), a < 2 ^ N →
      regionMaskAux board N a L2 < 2 ^ N := by
    intro L2
    induction L2 with
    | nil => intro a ha; exact ha
    | cons p ps ih =>
      intro a ha
      show regionMaskAux board N (if cellVal board N p = 0 then a
        else a ||| 1 <<< (cellVal board N p - 1)) ps < 2 ^ N
      by_cases hp : cellVal board N p = 0
      · rw [if_pos hp]
        exact ih a ha
      · rw [if_neg hp]
        apply ih
        apply Nat.or_lt_two_pow ha
        rw [Nat.shiftLeft_eq, Nat.one_mul]
        have hle : cellVal board N p ≤ N := hcell p hp
        apply (Nat.pow_lt_pow_iff_right (a := 2) (by omega)).mpr
        omega
  exact haux L 0 (Nat.pos_pow_of_pos N (by omega))

/-! ### Spec-side evaluator terms (written from the claim) -/

/-- Claim-side sniping classification of a region's sole empty cell. -/
def snipeContribution (cell : Nat × Nat) (my opp : List (Nat × Nat)) : Rat :=
  if cell ∈ my ∧ cell ∉ opp then 100
  else if cell ∈ opp ∧ cell ∉ my then -120
  else if cell ∈ my ∧ cell ∈ opp then 50
  else 0

/-- Per-record sniping term of the embedded code. -/
def snipeRec (my opp : List (Nat × Nat)) (region : RegionRec) : Rat :=
  if region.zeros = 1 then snipeContribution (region.empty_indices.headD (0, 0)) my opp
  else 0

/-- Claim-side sniping term of one region given by its cell list: regions
with exactly one empty cell contribute the classification of that cell. -/
def snipeRegionTerm (board : List Nat) (N : Nat) (my opp : List (Nat × Nat))
    (L : List (Nat × Nat)) : Rat :=
  match L.filter (fun p => cellVal board N p == 0) with
  | [e] => snipeContribution e my opp
  | _ => 0

/-- The 3N regions of the board as cell lists: N rows, N columns, N blocks. -/
def specRegions (N n m : Nat) : List (List (Nat × Nat)) :=
  (List.range N).map (rowCells N) ++ (List.range N).map (colCells N) ++
    (List.range N).map (blockCells N n m)

/-- Claim-side sniping total. -/
def snipingSpec (board : List Nat) (N n m : Nat) (my opp : List (Nat × Nat)) : Rat :=
  ((specRegions N n m).map (snipeRegionTerm board N my opp)).sum

/-- Claim-side mobility: twice the difference of empty allowed-cell counts. -/
def mobilitySpec (board : List Nat) (N : Nat) (my opp : List (Nat × Nat)) : Rat :=
  2 * (((my.filter (fun p => cellVal board N p == 0)).length : Rat) -
    ((opp.filter (fun p => cellVal board N p == 0)).length : Rat))

/-- Claim-side LRV reward for a cell with `k` legal values remaining. -/
def lrvContribution (k : Nat) : Rat :=
  if k = 1 then 5 else if k = 2 then 2 else if k > 2 then 1 / (k : Rat) else -10

/-- Claim-side union of the row, column and block used-value masks of a cell. -/
def unionMaskSpec (board : List Nat) (N n m r c : Nat) : Nat :=
  regionMask board N (rowCells N r) ||| regionMask board N (colCells N c) |||
    regionMask board N (blockCells N n m (blockIndex N n m r c))

/-- Claim-side LRV total over the evaluating player's empty allowed cells,
with `k = N - popcount(union of masks)`. -/
def lrvSpec (board : List Nat) (N n m : Nat) (my : List (Nat × Nat)) : Rat :=
  ((my.filter (fun p => cellVal board N p == 0)).map (fun p =>
    lrvContribution (N - popcount (unionMaskSpec board N n m p.1 p.2)))).sum

/-- The sniping if-chain as an additive contribution. -/
theorem snipe_chain_eq (s : Rat) (ci co : Prop) [Decidable ci] [Decidable co] :
    (if ci ∧ ¬ co then s + 100 else if co ∧ ¬ ci then s - 120
      else if ci ∧ co then s + 100 / 2 else s) =
    s + (if ci ∧ ¬ co then (100 : Rat) else if co ∧ ¬ ci then -120
      else if ci ∧ co then 50 else 0) := by
  split_ifs <;> ring

/-- The LRV if-chain as an additive contribution. -/
theorem lrv_chain_eq (s : Rat) (k : Nat) :
    (if k = 1 then s + 5 else if k = 2 then s + 2 else if k > 2 then s + 1 / (k : Rat)
      else s - 10) = s + lrvContribution k := by
  unfold lrvContribution
  split_ifs <;> ring

/-- Per-region agreement of the code's record-based sniping term with the
claim-side cell-list term. -/
theorem snipeRec_recordOf (board : List Nat) (N : Nat) (my opp : List (Nat × Nat))
    (L : List (Nat × Nat)) :
    snipeRec my opp (regionRecordOf board N L) = snipeRegionTerm board N my opp L := by
  unfold snipeRec regionRecordOf snipeRegionTerm
  rcases hf : L.filter (fun p => cellVal board N p == 0) with _ | ⟨e, rest⟩
  · rw [if_neg (by simp)]
  · rcases rest with _ | ⟨e2, rest2⟩
    · rw [if_pos (by simp)]
      rfl
    · rw [if_neg (by simp)]

/-- The embedded sniping score equals the claim-side sniping total. -/
theorem sniping_eq (board : List Nat) (N n m : Nat) (my opp : List (Nat × Nat))
    (hn : 0 < n) (hm : 0 < m) (hN : N = n * m) :
    calculate_sniping_score (get_region_status board N n m) my opp =
      snipingSpec board N n m my opp := by
  unfold calculate_sniping_score snipingSpec
  rw [List.foldl_ext _ (fun (score : Rat) (region : RegionRec) =>
      score + snipeRec my opp region) 0 (by
    intro s region _
    show _ = s + snipeRec my opp region
    by_cases h1 : region.zeros = 1
    · rw [if_pos h1,
        show snipeRec my opp region =
          snipeContribution (region.empty_indices.headD (0, 0)) my opp from by
            unfold snipeRec; rw [if_pos h1]]
      exact snipe_chain_eq s (region.empty_indices.headD (0, 0) ∈ my)
        (region.empty_indices.headD (0, 0) ∈ opp)
    · rw [if_neg h1,
        show snipeRec my opp region = 0 from by unfold snipeRec; rw [if_neg h1]]
      ring)]
  rw [foldl_add_shift, Rat.zero_add]
  rw [rows_list_eq, cols_list_eq, blocks_list_eq board N n m hn hm hN]
  unfold specRegions
  rw [List.map_append, List.map_append, List.map_append, List.map_append,
    List.map_map, List.map_map, List.map_map, List.map_map, List.map_map, List.map_map]
  have hrow : ((snipeRec my opp) ∘ fun i => regionRecordOf board N (rowCells N i)) =
      ((snipeRegionTerm board N my opp) ∘ rowCells N) :=
    funext (fun i => snipeRec_recordOf board N my opp (rowCells N i))
  have hcol : ((snipeRec my opp) ∘ fun i => regionRecordOf board N (colCells N i)) =
      ((snipeRegionTerm board N my opp) ∘ colCells N) :=
    funext (fun i => snipeRec_recordOf board N my opp (colCells N i))
  have hblk : ((snipeRec my opp) ∘ fun i => regionRecordOf board N (blockCells N n m i)) =
      ((snipeRegionTerm board N my opp) ∘ blockCells N n m) :=
    funext (fun i => snipeRec_recordOf board N my opp (blockCells N n m i))
  rw [hrow, hcol, hblk]

/-- The embedded mobility score is literally the claim-side term. -/
theorem mobility_eq (board : List Nat) (N : Nat) (my opp : List (Nat × Nat)) :
    calculate_mobility_score board N my opp = mobilitySpec board N my opp := rfl

/-- The embedded LRV score equals the claim-side total. -/
theorem lrv_eq (board : List Nat) (N n m : Nat) (my : List (Nat × Nat))
    (hn : 0 < n) (hm : 0 < m) (hN : N = n * m)
    (hvals : ∀ v ∈ board, v ≤ N)
    (hmy : ∀ p ∈ my, p.1 < N ∧ p.2 < N) :
    calculate_lrv_score board (get_region_status board N n m) N n m my =
      lrvSpec board N n m my := by
  unfold calculate_lrv_score lrvSpec
  rw [List.foldl_ext _ (fun (score : Rat) (rc : Nat × Nat) =>
      if (cellVal board N rc == 0) = true then
        score + lrvContribution (count_valid_options
          (((get_region_status board N n m).rows.getD rc.1 initRec).used_mask |||
            ((get_region_status board N n m).cols.getD rc.2 initRec).used_mask |||
            ((get_region_status board N n m).blocks.getD
              ((rc.1 / n) * (N / m) + rc.2 / m) initRec).used_mask) N)
      else score) 0 (by
    intro s rc _
    show _ = if (cellVal board N rc == 0) = true then
        s + lrvContribution (count_valid_options
          (((get_region_status board N n m).rows.getD rc.1 initRec).used_mask |||
            ((get_region_status board N n m).cols.getD rc.2 initRec).used_mask |||
            ((get_region_status board N n m).blocks.getD
              (rc.1 / n * (N / m) + rc.2 / m) initRec).used_mask) N)
      else s
    by_cases h0 : board.getD (rc.1 * N + rc.2) 0 = 0
    · rw [if_neg (show ¬ (board.getD (rc.1 * N + rc.2) 0 ≠ 0) from by omega),
        if_pos (show (cellVal board N rc == 0) = true from by unfold cellVal; rw [h0]; rfl)]
      exact lrv_chain_eq s _
    · rw [if_pos (show board.getD (rc.1 * N + rc.2) 0 ≠ 0 from h0),
        if_neg (show ¬ ((cellVal board N rc == 0) = true) from by
          unfold cellVal; simp only [beq_iff_eq]; exact h0)])]
  rw [foldl_if_add, Rat.zero_add]
  apply congrArg
  apply List.map_congr_left
  intro rc hrc
  have hrcmem : rc ∈ my := List.mem_of_mem_filter hrc
  obtain ⟨hr, hc⟩ := hmy rc hrcmem
  have hb : blockIndex N n m rc.1 rc.2 < N := blockIndex_lt N n m rc.1 rc.2 hn hm hN hr hc
  have hbeq : (rc.1 / n) * (N / m) + rc.2 / m = blockIndex N n m rc.1 rc.2 := rfl
  rw [hbeq, rows_record board N n m rc.1 hr, cols_record board N n m rc.2 hc,
    blocks_record board N n m (blockIndex N n m rc.1 rc.2) hn hm hN hb]
  show lrvContribution (count_valid_options (unionMaskSpec board N n m rc.1 rc.2) N) = _
  have hlt : unionMaskSpec board N n m rc.1 rc.2 < 2 ^ N := by
    unfold unionMaskSpec
    apply Nat.or_lt_two_pow
    · apply Nat.or_lt_two_pow
      · exact regionMask_lt_two_pow board N hvals _
      · exact regionMask_lt_two_pow board N hvals _
    · exact regionMask_lt_two_pow board N hvals _
  rw [count_valid_options_eq _ N hlt]

/-- Conclusion of C8: the evaluator value is exactly the real-score
differential weighted by 1000 plus the claim-side sniping, mobility and LRV
terms, computed with the evaluating player's and the opponent's allowed
lists. -/
def EvaluateFormula (gs : GameState) (my : Nat) : Prop :=
  evaluate_board gs my =
    1000 * (((if my = 1 then gs.scores.1 else gs.scores.2) : Rat) -
      ((if my = 1 then gs.scores.2 else gs.scores.1) : Rat)) +
    snipingSpec gs.board.squares gs.board.N gs.board.n gs.board.m
      (if my = 1 then gs.allowed1 else gs.allowed2)
      (if my = 1 then gs.allowed2 else gs.allowed1) +
    mobilitySpec gs.board.squares gs.board.N
      (if my = 1 then gs.allowed1 else gs.allowed2)
      (if my = 1 then gs.allowed2 else gs.allowed1) +
    lrvSpec gs.board.squares gs.board.N gs.board.n gs.board.m
      (if my = 1 then gs.allowed1 else gs.allowed2)

/-- C8: `SudokuAI.evaluate_board` computes exactly
`1000·(score differential) + sniping + mobility + LRV` as the claim states
them, on a well-formed game state. -/
theorem evaluate_board_formula (gs : GameState) (my : Nat)
    (hp : my = 1 ∨ my = 2)
    (hn : 0 < gs.board.n) (hm : 0 < gs.board.m)
    (hN : gs.board.N = gs.board.n * gs.board.m)
    (hvals : ∀ v ∈ gs.board.squares, v ≤ gs.board.N)
    (hall1 : ∀ p ∈ gs.allowed1, p.1 < gs.board.N ∧ p.2 < gs.board.N)
    (hall2 : ∀ p ∈ gs.allowed2, p.1 < gs.board.N ∧ p.2 < gs.board.N) :
    EvaluateFormula gs my := by
  unfold EvaluateFormula evaluate_board evaluate_board_run heuristics_evaluate_board
  rcases hp with h | h
  · subst h
    show ((if (1 : Nat) = 1 then gs.scores.1 else gs.scores.2) -
        (if (1 : Nat) = 1 then gs.scores.2 else gs.scores.1) : Int) * (1000 : Rat) +
        (calculate_sniping_score _ _ _ + calculate_mobility_score _ _ _ _ +
          calculate_lrv_score _ _ _ _ _ _) = _
    rw [if_pos rfl, if_pos rfl, if_pos rfl, if_pos rfl]
    have hps1 : (GameState.player_squares { gs with current_player := 1 }) = gs.allowed1 := rfl
    have hps2 : (GameState.player_squares { gs with current_player := 3 - 1 }) = gs.allowed2 := rfl
    rw [hps1, hps2]
    rw [sniping_eq gs.board.squares gs.board.N gs.board.n gs.board.m gs.allowed1 gs.allowed2
        hn hm hN,
      mobility_eq,
      lrv_eq gs.board.squares gs.board.N gs.board.n gs.board.m gs.allowed1 hn hm hN hvals hall1]
    push_cast
    ring
  · subst h
    show ((if (2 : Nat) = 1 then gs.scores.1 else gs.scores.2) -
        (if (2 : Nat) = 1 then gs.scores.2 else gs.scores.1) : Int) * (1000 : Rat) +
        (calculate_sniping_score _ _ _ + calculate_mobility_score _ _ _ _ +
          calculate_lrv_score _ _ _ _ _ _) = _
    rw [if_neg (by omega), if_neg (by omega), if_neg (by omega), if_neg (by omega)]
    have hps1 : (GameState.player_squares { gs with current_player := 2 }) = gs.allowed2 := by
      unfold GameState.player_squares
      rw [if_neg (by norm_num)]
    have hps2 : (GameState.player_squares { gs with current_player := 3 - 2 }) = gs.allowed1 := rfl
    rw [hps1, hps2]
    rw [sniping_eq gs.board.squares gs.board.N gs.board.n gs.board.m gs.allowed2 gs.allowed1
        hn hm hN,
      mobility_eq,
      lrv_eq gs.board.squares gs.board.N gs.board.n gs.board.m gs.allowed2 hn hm hN hvals hall2]
    push_cast
    ring

/-- Witness for `evaluate_board_formula` on a concrete 4×4 game state. -/
theorem evaluate_board_formula_witness :
    EvaluateFormula
      ⟨⟨4, 2, 2, [0,2,3,4, 3,4,1,2, 0,0,0,0, 0,0,0,0]⟩, [], 1, (3, 1), [(0,0),(2,1)],
        [], [(0,0),(2,1)], [(2,2)]⟩ 1 :=
  evaluate_board_formula _ 1 (Or.inl rfl) (by decide) (by decide) (by decide)
    (by decide) (by decide) (by decide)

/-! ### Embedding of the search engine (`compute_best_move` / `minimax`) -/

/-- The score domain of the search: rationals extended with the
`float('-inf')` / `float('inf')` sentinels. -/
abbrev ERat := WithBot (WithTop Rat)

/-- A finite score. -/
def toERat (q : Rat) : ERat := ((q : WithTop Rat) : WithBot (WithTop Rat))

/-- The maximizing inner loop of `minimax`: fold the children, raising
`max_eval` and `alpha`, breaking as soon as `beta ≤ alpha`. -/
def abMaxLoop (f : MoveT → ERat → ERat) (beta : ERat) :
    List MoveT → ERat → ERat → ERat
  | [], max_eval, _ => max_eval
  | mv :: ms, max_eval, alpha =>
    let eval_score := f mv alpha
    let max_eval2 := max max_eval eval_score
    let alpha2 := max alpha eval_score
    if beta ≤ alpha2 then max_eval2 else abMaxLoop f beta ms max_eval2 alpha2

/-- The minimizing inner loop of `minimax`. -/
def abMinLoop (f : MoveT → ERat → ERat) (alpha : ERat) :
    List MoveT → ERat → ERat → ERat
  | [], min_eval, _ => min_eval
  | mv :: ms, min_eval, beta =>
    let eval_score := f mv beta
    let min_eval2 := min min_eval eval_score
    let beta2 := min beta eval_score
    if beta2 ≤ alpha then min_eval2 else abMinLoop f alpha ms min_eval2 beta2

/-- Move-tuples converted to `Move`s and stably sorted by descending
immediate points, as in `compute_best_move` and `minimax`. -/
def sorted_moves (gs : GameState) (mts : List (Nat × Nat × Nat)) : List MoveT :=
  (mts.map (fun t => (⟨(t.1, t.2.1), t.2.2⟩ : MoveT))).mergeSort
    (fun a b => get_immediate_points gs b ≤ get_immediate_points gs a)

/-- Embedding of `SudokuAI.minimax` (first argument is the depth). -/
def minimax : Nat → GameState → ERat → ERat → Bool → Nat → ERat
  | 0, gs, _, _, _, my => toERat (evaluate_board gs my)
  | d + 1, gs, alpha, beta, is_maximizing, my =>
    let oracle := mkLocalOracle gs.board gs.taboo_moves
    let allowed := gs.player_squares
    if allowed = [] then toERat (evaluate_board gs my)
    else
      let move_tuples := oracle.get_legal_moves allowed
      if move_tuples = [] then toERat (evaluate_board gs my)
      else
        let moves := sorted_moves gs move_tuples
        if is_maximizing then
          abMaxLoop (fun mv a2 => minimax d (apply_move gs mv) a2 beta false my)
            beta moves ⊥ alpha
        else
          abMinLoop (fun mv b2 => minimax d (apply_move gs mv) alpha b2 true my)
            alpha moves ⊤ beta

/-- The unpruned minimax over the same move ordering (written from the
spec's words: plain max/min over all children, no alpha-beta window). -/
def fullMinimax : Nat → GameState → Bool → Nat → ERat
  | 0, gs, _, my => toERat (evaluate_board gs my)
  | d + 1, gs, is_maximizing, my =>
    let oracle := mkLocalOracle gs.board gs.taboo_moves
    let allowed := gs.player_squares
    if allowed = [] then toERat (evaluate_board gs my)
    else
      let move_tuples := oracle.get_legal_moves allowed
      if move_tuples = [] then toERat (evaluate_board gs my)
      else
        let moves := sorted_moves gs move_tuples
        if is_maximizing then
          moves.foldl (fun acc mv => max acc (fullMinimax d (apply_move gs mv) false my)) ⊥
        else
          moves.foldl (fun acc mv => min acc (fullMinimax d (apply_move gs mv) true my)) ⊤

/-- The root loop of `compute_best_move` at one fixed depth: walk the sorted
root moves tracking `(best_move, best_score, alpha)`; `d` is the child
depth (`depth - 1`). -/
def rootLoop (gs : GameState) (d : Nat) (my : Nat) :
    List MoveT → Option MoveT × ERat × ERat → Option MoveT × ERat × ERat
  | [], acc => acc
  | mv :: ms, acc =>
    let score := minimax d (apply_move gs mv) acc.2.2 ⊤ false my
    let acc2 := if acc.2.1 < score then (some mv, score) else (acc.1, acc.2.1)
    rootLoop gs d my ms (acc2.1, acc2.2, max acc.2.2 acc2.2)

/-- The root legal-move tuples of `compute_best_move`. -/
def root_legal_moves (gs : GameState) : List (Nat × Nat × Nat) :=
  (mkLocalOracle gs.board gs.taboo_moves).get_legal_moves gs.player_squares

/-- The best root move and score computed by one iteration of the
iterative-deepening loop at the given depth, with alpha-beta pruning. -/
def search_at_depth (gs : GameState) (depth : Nat) : Option MoveT × ERat :=
  let moves := sorted_moves gs (root_legal_moves gs)
  let res := rootLoop gs (depth - 1) gs.current_player moves (none, ⊥, ⊥)
  (res.1, res.2.1)

/-- The unpruned root loop (every child searched with the full window). -/
def fullRootLoop (gs : GameState) (d : Nat) (my : Nat) :
    List MoveT → Option MoveT × ERat → Option MoveT × ERat
  | [], acc => acc
  | mv :: ms, acc =>
    let score := fullMinimax d (apply_move gs mv) false my
    let acc2 := if acc.2 < score then (some mv, score) else acc
    fullRootLoop gs d my ms acc2

/-- The best root move and score of the unpruned full minimax at the given
depth, over the same move ordering. -/
def full_search_at_depth (gs : GameState) (depth : Nat) : Option MoveT × ERat :=
  fullRootLoop gs (depth - 1) gs.current_player
    (sorted_moves gs (root_legal_moves gs)) (none, ⊥)

/-- The sequence of moves `compute_best_move` has published once the
iterative-deepening loop has completed depths `1..k`: nothing when the root
has no legal move, otherwise the sorted head as the immediate fallback
followed by each completed depth's best move. -/
def published_moves (gs : GameState) (k : Nat) : List MoveT :=
  if root_legal_moves gs = [] then []
  else
    (sorted_moves gs (root_legal_moves gs)).headD ⟨(0, 0), 0⟩ ::
      ((List.range' 1 k).filterMap (fun depth => (search_at_depth gs depth).1))

/-! ### Fail-soft alpha-beta correctness -/

/-- The fail-soft specification triple: inside the window the value is
exact, outside it is a sound bound on the true value `v`. -/
def AbSpec (alpha beta r v : ERat) : Prop :=
  (r ≤ alpha → v ≤ r) ∧ (alpha < r → r < beta → r = v) ∧ (beta ≤ r → r ≤ v)

/-- A value equal to the true value satisfies any window's triple. -/
theorem abSpec_refl (alpha beta v : ERat) : AbSpec alpha beta v v :=
  ⟨fun _ => le_refl v, fun _ _ => rfl, fun _ => le_refl v⟩

/-- One step of `abMaxLoop`. -/
theorem abMaxLoop_cons (f : MoveT → ERat → ERat) (beta : ERat) (mv : MoveT)
    (ms : List MoveT) (me alpha : ERat) :
    abMaxLoop f beta (mv :: ms) me alpha =
      if beta ≤ max alpha (f mv alpha) then max me (f mv alpha)
      else abMaxLoop f beta ms (max me (f mv alpha)) (max alpha (f mv alpha)) := rfl

/-- One step of `abMinLoop`. -/
theorem abMinLoop_cons (f : MoveT → ERat → ERat) (alpha : ERat) (mv : MoveT)
    (ms : List MoveT) (me beta : ERat) :
    abMinLoop f alpha (mv :: ms) me beta =
      if min beta (f mv beta) ≤ alpha then min me (f mv beta)
      else abMinLoop f alpha ms (min me (f mv beta)) (min beta (f mv beta)) := rfl

/-- The max-fold only grows its initial value. -/
theorem le_foldl_max (g : MoveT → ERat) :
    ∀ (l : List MoveT) (a : ERat), a ≤ l.foldl (fun acc mv => max acc (g mv)) a := by
  intro l
  induction l with
  | nil => intro a; exact le_refl a
  | cons mv ms ih =>
    intro a
    rw [List.foldl_cons]
    exact le_trans (le_max_left a (g mv)) (ih (max a (g mv)))

/-- The min-fold only shrinks its initial value. -/
theorem foldl_min_le (g : MoveT → ERat) :
    ∀ (l : List MoveT) (a : ERat), l.foldl (fun acc mv => min acc (g mv)) a ≤ a := by
  intro l
  induction l with
  | nil => intro a; exact le_refl a
  | cons mv ms ih =>
    intro a
    rw [List.foldl_cons]
    exact le_trans (ih (min a (g mv))) (min_le_left a (g mv))

/-- The max-fold factors through its initial value. -/
theorem foldl_max_init (g : MoveT → ERat) :
    ∀ (l : List MoveT) (a : ERat),
    l.foldl (fun acc mv => max acc (g mv)) a =
      max a (l.foldl (fun acc mv => max acc (g mv)) ⊥) := by
  intro l
  induction l with
  | nil => intro a; exact (max_eq_left bot_le).symm
  | cons mv ms ih =>
    intro a
    rw [List.foldl_cons, List.foldl_cons, ih (max a (g mv)),
      ih (max (⊥ : ERat) (g mv)), max_eq_right (bot_le : (⊥ : ERat) ≤ g mv),
      max_assoc]

/-- The min-fold factors through its initial value. -/
theorem foldl_min_init (g : MoveT → ERat) :
    ∀ (l : List MoveT) (a : ERat),
    l.foldl (fun acc mv => min acc (g mv)) a =
      min a (l.foldl (fun acc mv => min acc (g mv)) ⊤) := by
  intro l
  induction l with
  | nil => intro a; exact (min_eq_left le_top).symm
  | cons mv ms ih =>
    intro a
    rw [List.foldl_cons, List.foldl_cons, ih (min a (g mv)),
      ih (min (⊤ : ERat) (g mv)), min_eq_right (le_top : g mv ≤ (⊤ : ERat)),
      min_assoc]

/-- Fail-soft correctness of the maximizing loop: relative to the window
`(alpha0, beta)` and accumulated best `me`, the loop result and the full
max-fold satisfy the specification triple. -/
theorem abMaxLoop_spec (f : MoveT → ERat → ERat) (g : MoveT → ERat) (beta : ERat)
    (hf : ∀ mv a2, a2 < beta → AbSpec a2 beta (f mv a2) (g mv)) (alpha0 : ERat) :
    ∀ (ms : List MoveT) (me : ERat), max alpha0 me < beta →
    AbSpec alpha0 beta (abMaxLoop f beta ms me (max alpha0 me))
      (ms.foldl (fun acc mv => max acc (g mv)) me) := by
  intro ms
  induction ms with
  | nil => intro me h; exact abSpec_refl alpha0 beta me
  | cons mv ms ih =>
    intro me h
    rw [abMaxLoop_cons, List.foldl_cons]
    set r1 := f mv (max alpha0 me) with hr1def
    have trip1 := hf mv (max alpha0 me) h
    by_cases hbreak : beta ≤ max (max alpha0 me) r1
    · rw [if_pos hbreak]
      have hr1beta : beta ≤ r1 := by
        by_contra hlt
        push_neg at hlt
        exact absurd hbreak (not_le_of_lt (max_lt h hlt))
      have hv1 : r1 ≤ g mv := trip1.2.2 hr1beta
      have hlow : alpha0 < max me r1 :=
        lt_of_le_of_lt (le_max_left alpha0 me)
          (lt_of_lt_of_le (lt_of_lt_of_le h hr1beta) (le_max_right me r1))
      refine ⟨fun hle => absurd hle (not_le_of_lt hlow), fun _ hltb => ?_, fun _ => ?_⟩
      · exact absurd hltb (not_lt_of_le (le_trans hr1beta (le_max_right me r1)))
      · calc max me r1 ≤ max me (g mv) := max_le_max (le_refl me) hv1
          _ ≤ ms.foldl (fun acc mv => max acc (g mv)) (max me (g mv)) :=
            le_foldl_max g ms (max me (g mv))
    · rw [if_neg hbreak]
      have halpha2 : max alpha0 (max me r1) = max (max alpha0 me) r1 :=
        (max_assoc alpha0 me r1).symm
      have h2 : max alpha0 (max me r1) < beta := by
        rw [halpha2]
        exact lt_of_not_le hbreak
      have hrec := ih (max me r1) h2
      rw [halpha2] at hrec
      have hr1lt : r1 < beta :=
        lt_of_le_of_lt (le_max_right (max alpha0 me) r1) (lt_of_not_le hbreak)
      rcases le_or_lt r1 (max alpha0 me) with hcase | hcase
      · have hv1 : g mv ≤ r1 := trip1.1 hcase
        set M := ms.foldl (fun acc mv => max acc (g mv)) (⊥ : ERat) with hM
        have hvds : ms.foldl (fun acc mv => max acc (g mv)) (max me r1) =
            max r1 (max me M) := by
          rw [foldl_max_init g ms (max me r1), max_comm me r1, max_assoc]
        have hvs : ms.foldl (fun acc mv => max acc (g mv)) (max me (g mv)) =
            max (g mv) (max me M) := by
          rw [foldl_max_init g ms (max me (g mv)), max_comm me (g mv), max_assoc]
        rw [hvds] at hrec
        rw [hvs]
        obtain ⟨hc1, hc2, hc3⟩ := hrec
        have hmono : max (g mv) (max me M) ≤ max r1 (max me M) :=
          max_le_max hv1 (le_refl (max me M))
        refine ⟨fun hle => le_trans hmono (hc1 hle), fun hgt hltb => ?_, fun hbe => ?_⟩
        · have hr := hc2 hgt hltb
          rcases le_or_lt r1 me with hrm | hrm
          · have e1 : max r1 (max me M) = max me M :=
              max_eq_right (le_trans hrm (le_max_left me M))
            have e2 : max (g mv) (max me M) = max me M :=
              max_eq_right (le_trans (le_trans hv1 hrm) (le_max_left me M))
            rw [hr, e1, e2]
          · have hr1a : r1 ≤ alpha0 := by
              rcases max_cases alpha0 me with ⟨hmx, _⟩ | ⟨hmx, _⟩
              · rw [hmx] at hcase; exact hcase
              · rw [hmx] at hcase
                rcases lt_or_le me r1 with hx | hx
                · exact absurd hcase (not_le_of_lt hx)
                · exact absurd hx (not_le_of_lt hrm)
            have hthin : alpha0 < max r1 (max me M) := by
              rw [← hr]; exact hgt
            have hr1lt2 : r1 < max r1 (max me M) := lt_of_le_of_lt hr1a hthin
            have e1 : max r1 (max me M) = max me M := by
              rcases max_cases r1 (max me M) with ⟨hmx, _⟩ | ⟨hmx, _⟩
              · rw [hmx] at hr1lt2; exact absurd hr1lt2 (lt_irrefl r1)
              · exact hmx
            have hglt : g mv ≤ max me M := by
              rw [e1] at hr1lt2
              exact le_trans hv1 (le_of_lt hr1lt2)
            have e2 : max (g mv) (max me M) = max me M := max_eq_right hglt
            rw [hr, e1, e2]
        · have hr := hc3 hbe
          have hr1ltr : r1 < abMaxLoop f beta ms (max me r1) (max (max alpha0 me) r1) :=
            lt_of_le_of_lt hcase (lt_of_lt_of_le h hbe)
          have hrw : abMaxLoop f beta ms (max me r1) (max (max alpha0 me) r1) ≤
              max me M := by
            rcases max_cases r1 (max me M) with ⟨hmx, _⟩ | ⟨hmx, _⟩
            · rw [hmx] at hr
              exact absurd hr (not_le_of_lt hr1ltr)
            · rw [hmx] at hr
              exact hr
          exact le_trans hrw (le_max_right (g mv) (max me M))
      · have hexact : r1 = g mv := trip1.2.1 hcase hr1lt
        rw [← hexact]
        exact hrec

/-- Fail-soft correctness of the minimizing loop. -/
theorem abMinLoop_spec (f : MoveT → ERat → ERat) (g : MoveT → ERat) (alpha : ERat)
    (hf : ∀ mv b2, alpha < b2 → AbSpec alpha b2 (f mv b2) (g mv)) (beta0 : ERat) :
    ∀ (ms : List MoveT) (me : ERat), alpha < min beta0 me →
    AbSpec alpha beta0 (abMinLoop f alpha ms me (min beta0 me))
      (ms.foldl (fun acc mv => min acc (g mv)) me) := by
  intro ms
  induction ms with
  | nil => intro me h; exact abSpec_refl alpha beta0 me
  | cons mv ms ih =>
    intro me h
    rw [abMinLoop_cons, List.foldl_cons]
    set r1 := f mv (min beta0 me) with hr1def
    have trip1 := hf mv (min beta0 me) h
    by_cases hbreak : min (min beta0 me) r1 ≤ alpha
    · rw [if_pos hbreak]
      have hr1alpha : r1 ≤ alpha := by
        by_contra hlt
        push_neg at hlt
        exact absurd hbreak (not_le_of_lt (lt_min h hlt))
      have hv1 : g mv ≤ r1 := trip1.1 hr1alpha
      have hhigh : min me r1 ≤ alpha := le_trans (min_le_right me r1) hr1alpha
      refine ⟨fun _ => ?_, fun hgt _ => ?_, fun hbe => ?_⟩
      · calc ms.foldl (fun acc mv => min acc (g mv)) (min me (g mv)) ≤ min me (g mv) :=
            foldl_min_le g ms (min me (g mv))
          _ ≤ min me r1 := min_le_min (le_refl me) hv1
      · exact absurd hgt (not_lt_of_le hhigh)
      · exact absurd (lt_of_le_of_lt (le_trans hbe hhigh)
          (lt_of_lt_of_le h (min_le_left beta0 me))) (lt_irrefl beta0)
    · rw [if_neg hbreak]
      have hbeta2 : min beta0 (min me r1) = min (min beta0 me) r1 :=
        (min_assoc beta0 me r1).symm
      have h2 : alpha < min beta0 (min me r1) := by
        rw [hbeta2]
        exact lt_of_not_le hbreak
      have hrec := ih (min me r1) h2
      rw [hbeta2] at hrec
      have hr1gt : alpha < r1 :=
        lt_of_lt_of_le (lt_of_not_le hbreak) (min_le_right (min beta0 me) r1)
      rcases le_or_lt (min beta0 me) r1 with hcase | hcase
      · have hv1 : r1 ≤ g mv := trip1.2.2 hcase
        set M := ms.foldl (fun acc mv => min acc (g mv)) (⊤ : ERat) with hM
        have hvds : ms.foldl (fun acc mv => min acc (g mv)) (min me r1) =
            min r1 (min me M) := by
          rw [foldl_min_init g ms (min me r1), min_comm me r1, min_assoc]
        have hvs : ms.foldl (fun acc mv => min acc (g mv)) (min me (g mv)) =
            min (g mv) (min me M) := by
          rw [foldl_min_init g ms (min me (g mv)), min_comm me (g mv), min_assoc]
        rw [hvds] at hrec
        rw [hvs]
        obtain ⟨hc1, hc2, hc3⟩ := hrec
        have hmono : min r1 (min me M) ≤ min (g mv) (min me M) :=
          min_le_min hv1 (le_refl (min me M))
        refine ⟨fun hle => ?_, fun hgt hltb => ?_, fun hbe => ?_⟩
        · have hr := hc1 hle
          have hrltr1 : abMinLoop f alpha ms (min me r1) (min (min beta0 me) r1) < r1 :=
            lt_of_le_of_lt hle (lt_of_lt_of_le hr1gt (le_refl r1))
          have hrw : min me M ≤
              abMinLoop f alpha ms (min me r1) (min (min beta0 me) r1) := by
            rcases min_cases r1 (min me M) with ⟨hmx, _⟩ | ⟨hmx, _⟩
            · rw [hmx] at hr
              exact absurd hr (not_le_of_lt hrltr1)
            · rw [hmx] at hr
              exact hr
          exact le_trans (min_le_right (g mv) (min me M)) hrw
        · have hr := hc2 hgt hltb
          rcases le_or_lt me r1 with hrm | hrm
          · have e1 : min r1 (min me M) = min me M :=
              min_eq_right (le_trans (min_le_left me M) hrm)
            have e2 : min (g mv) (min me M) = min me M :=
              min_eq_right (le_trans (min_le_left me M) (le_trans hrm hv1))
            rw [hr, e1, e2]
          · have hr1b : beta0 ≤ r1 := by
              rcases min_cases beta0 me with ⟨hmx, _⟩ | ⟨hmx, _⟩
              · rw [hmx] at hcase; exact hcase
              · rw [hmx] at hcase
                exact absurd hcase (not_le_of_lt hrm)
            have hthin : min r1 (min me M) < beta0 := by
              rw [← hr]; exact hltb
            have hr1lt2 : min r1 (min me M) < r1 :=
              lt_of_lt_of_le hthin hr1b
            have e1 : min r1 (min me M) = min me M := by
              rcases min_cases r1 (min me M) with ⟨hmx, _⟩ | ⟨hmx, _⟩
              · rw [hmx] at hr1lt2; exact absurd hr1lt2 (lt_irrefl r1)
              · exact hmx
            have hglt : min me M ≤ g mv := by
              rw [e1] at hr1lt2
              exact le_trans (le_of_lt hr1lt2) hv1
            have e2 : min (g mv) (min me M) = min me M := min_eq_right hglt
            rw [hr, e1, e2]
        · have hr := hc3 hbe
          exact le_trans hr hmono
      · have hexact : r1 = g mv := trip1.2.1 hr1gt hcase
        rw [← hexact]
        exact hrec

/-- The node-level fail-soft specification: the pruning `minimax` and the
unpruned `fullMinimax` agree inside the window and bound each other outside. -/
theorem minimax_spec (my : Nat) :
    ∀ (d : Nat) (gs : GameState) (alpha beta : ERat) (mx : Bool), alpha < beta →
    AbSpec alpha beta (minimax d gs alpha beta mx my) (fullMinimax d gs mx my) := by
  intro d
  induction d with
  | zero =>
    intro gs alpha beta mx h
    exact abSpec_refl alpha beta (toERat (evaluate_board gs my))
  | succ d ih =>
    intro gs alpha beta mx h
    by_cases ha : gs.player_squares = []
    · simp only [minimax, fullMinimax, if_pos ha]
      exact abSpec_refl alpha beta _
    · by_cases hmts : (mkLocalOracle gs.board gs.taboo_moves).get_legal_moves
          gs.player_squares = []
      · simp only [minimax, fullMinimax, if_neg ha, if_pos hmts]
        exact abSpec_refl alpha beta _
      · cases mx with
        | false =>
          simp only [minimax, fullMinimax, if_neg ha, if_neg hmts,
            if_neg Bool.false_ne_true]
          have hspec := abMinLoop_spec
            (fun mv b2 => minimax d (apply_move gs mv) alpha b2 true my)
            (fun mv => fullMinimax d (apply_move gs mv) true my) alpha
            (fun mv b2 hb2 => ih (apply_move gs mv) alpha b2 true hb2) beta
            (sorted_moves gs ((mkLocalOracle gs.board gs.taboo_moves).get_legal_moves
              gs.player_squares)) ⊤
            (by rw [min_eq_left le_top]; exact h)
          rw [min_eq_left le_top] at hspec
          exact hspec
        | true =>
          simp only [minimax, fullMinimax, if_neg ha, if_neg hmts, if_pos rfl]
          have hspec := abMaxLoop_spec
            (fun mv a2 => minimax d (apply_move gs mv) a2 beta false my)
            (fun mv => fullMinimax d (apply_move gs mv) false my) beta
            (fun mv a2 ha2 => ih (apply_move gs mv) a2 beta false ha2) alpha
            (sorted_moves gs ((mkLocalOracle gs.board gs.taboo_moves).get_legal_moves
              gs.player_squares)) ⊥
            (by rw [max_eq_left bot_le]; exact h)
          rw [max_eq_left bot_le] at hspec
          exact hspec

/-- Finite evaluations are strictly between the sentinels. -/
theorem toERat_bounds (q : Rat) : ⊥ < toERat q ∧ toERat q < ⊤ := by
  constructor
  · exact WithBot.bot_lt_coe _
  · show ((q : WithTop Rat) : WithBot (WithTop Rat)) < ((⊤ : WithTop Rat) : WithBot (WithTop Rat))
    exact WithBot.coe_lt_coe.mpr (WithTop.coe_lt_top q)

/-- The maximizing loop result dominates its accumulator. -/
theorem le_abMaxLoop (f : MoveT → ERat → ERat) (beta : ERat) :
    ∀ (ms : List MoveT) (me alpha : ERat), me ≤ abMaxLoop f beta ms me alpha := by
  intro ms
  induction ms with
  | nil => intro me alpha; exact le_refl me
  | cons mv ms ih =>
    intro me alpha
    rw [abMaxLoop_cons]
    by_cases hbr : beta ≤ max alpha (f mv alpha)
    · rw [if_pos hbr]; exact le_max_left me (f mv alpha)
    · rw [if_neg hbr]
      exact le_trans (le_max_left me (f mv alpha)) (ih _ _)

/-- The minimizing loop result is below its accumulator. -/
theorem abMinLoop_le (f : MoveT → ERat → ERat) (alpha : ERat) :
    ∀ (ms : List MoveT) (me beta : ERat), abMinLoop f alpha ms me beta ≤ me := by
  intro ms
  induction ms with
  | nil => intro me beta; exact le_refl me
  | cons mv ms ih =>
    intro me beta
    rw [abMinLoop_cons]
    by_cases hbr : min beta (f mv beta) ≤ alpha
    · rw [if_pos hbr]; exact min_le_left me (f mv beta)
    · rw [if_neg hbr]
      exact le_trans (ih _ _) (min_le_left me (f mv beta))

/-- The maximizing loop stays below `⊤` when its inputs do. -/
theorem abMaxLoop_lt_top (f : MoveT → ERat → ERat) (beta : ERat)
    (hf : ∀ mv a2, f mv a2 < ⊤) :
    ∀ (ms : List MoveT) (me alpha : ERat), me < ⊤ → abMaxLoop f beta ms me alpha < ⊤ := by
  intro ms
  induction ms with
  | nil => intro me alpha hme; exact hme
  | cons mv ms ih =>
    intro me alpha hme
    rw [abMaxLoop_cons]
    by_cases hbr : beta ≤ max alpha (f mv alpha)
    · rw [if_pos hbr]; exact max_lt hme (hf mv alpha)
    · rw [if_neg hbr]
      exact ih _ _ (max_lt hme (hf mv alpha))

/-- The minimizing loop stays above `⊥` when its inputs do. -/
theorem bot_lt_abMinLoop (f : MoveT → ERat → ERat) (alpha : ERat)
    (hf : ∀ mv b2, ⊥ < f mv b2) :
    ∀ (ms : List MoveT) (me beta : ERat), ⊥ < me → ⊥ < abMinLoop f alpha ms me beta := by
  intro ms
  induction ms with
  | nil => intro me beta hme; exact hme
  | cons mv ms ih =>
    intro me beta hme
    rw [abMinLoop_cons]
    by_cases hbr : min beta (f mv beta) ≤ alpha
    · rw [if_pos hbr]; exact lt_min hme (hf mv beta)
    · rw [if_neg hbr]
      exact ih _ _ (lt_min hme (hf mv beta))

/-- A nonempty maximizing loop is above `⊥` when its children are. -/
theorem bot_lt_abMaxLoop_cons (f : MoveT → ERat → ERat) (beta : ERat)
    (hf : ∀ mv a2, ⊥ < f mv a2) (mv : MoveT) (ms : List MoveT) (me alpha : ERat) :
    ⊥ < abMaxLoop f beta (mv :: ms) me alpha := by
  rw [abMaxLoop_cons]
  by_cases hbr : beta ≤ max alpha (f mv alpha)
  · rw [if_pos hbr]
    exact lt_of_lt_of_le (hf mv alpha) (le_max_right me (f mv alpha))
  · rw [if_neg hbr]
    exact lt_of_lt_of_le (lt_of_lt_of_le (hf mv alpha) (le_max_right me (f mv alpha)))
      (le_abMaxLoop f beta ms _ _)

/-- A nonempty minimizing loop is below `⊤` when its children are. -/
theorem abMinLoop_cons_lt_top (f : MoveT → ERat → ERat) (alpha : ERat)
    (hf : ∀ mv b2, f mv b2 < ⊤) (mv : MoveT) (ms : List MoveT) (me beta : ERat) :
    abMinLoop f alpha (mv :: ms) me beta < ⊤ := by
  rw [abMinLoop_cons]
  by_cases hbr : min beta (f mv beta) ≤ alpha
  · rw [if_pos hbr]
    exact lt_of_le_of_lt (min_le_right me (f mv beta)) (hf mv beta)
  · rw [if_neg hbr]
    exact lt_of_le_of_lt (abMinLoop_le f alpha ms _ _)
      (lt_of_le_of_lt (min_le_right me (f mv beta)) (hf mv beta))

/-- An empty sorted move list comes from an empty tuple list. -/
theorem sorted_moves_eq_nil (gs : GameState) (mts : List (Nat × Nat × Nat))
    (h : sorted_moves gs mts = []) : mts = [] := by
  unfold sorted_moves at h
  have hlen := congrArg List.length h
  rw [List.length_mergeSort, List.length_map] at hlen
  exact List.length_eq_zero.mp hlen

/-- The search value is always strictly between the sentinels. -/
theorem minimax_finite (my : Nat) :
    ∀ (d : Nat) (gs : GameState) (alpha beta : ERat) (mx : Bool),
    ⊥ < minimax d gs alpha beta mx my ∧ minimax d gs alpha beta mx my < ⊤ := by
  intro d
  induction d with
  | zero => intro gs alpha beta mx; exact toERat_bounds (evaluate_board gs my)
  | succ d ih =>
    intro gs alpha beta mx
    by_cases ha : gs.player_squares = []
    · simp only [minimax, if_pos ha]
      exact toERat_bounds (evaluate_board gs my)
    · by_cases hmts : (mkLocalOracle gs.board gs.taboo_moves).get_legal_moves
          gs.player_squares = []
      · simp only [minimax, if_neg ha, if_pos hmts]
        exact toERat_bounds (evaluate_board gs my)
      · rcases hms : sorted_moves gs ((mkLocalOracle gs.board gs.taboo_moves).get_legal_moves
            gs.player_squares) with _ | ⟨mv, ms⟩
        · exact absurd (sorted_moves_eq_nil gs _ hms) hmts
        · cases mx with
          | false =>
            simp only [minimax, if_neg ha, if_neg hmts, if_neg Bool.false_ne_true, hms]
            constructor
            · exact bot_lt_abMinLoop _ alpha
                (fun mv2 b2 => (ih (apply_move gs mv2) alpha b2 true).1) (mv :: ms) ⊤ beta
                (bot_lt_top)
            · exact abMinLoop_cons_lt_top _ alpha
                (fun mv2 b2 => (ih (apply_move gs mv2) alpha b2 true).2) mv ms ⊤ beta
          | true =>
            simp only [minimax, if_neg ha, if_neg hmts, if_pos rfl, hms]
            constructor
            · exact bot_lt_abMaxLoop_cons _ beta
                (fun mv2 a2 => (ih (apply_move gs mv2) a2 beta false).1) mv ms ⊥ alpha
            · exact abMaxLoop_lt_top _ beta
                (fun mv2 a2 => (ih (apply_move gs mv2) a2 beta false).2) (mv :: ms) ⊥ alpha
                (bot_lt_top)

/-- One step of the pruned root loop. -/
theorem rootLoop_cons (gs : GameState) (d : Nat) (my : Nat) (mv : MoveT)
    (ms : List MoveT) (best : Option MoveT) (bs alpha : ERat) :
    rootLoop gs d my (mv :: ms) (best, bs, alpha) =
      (if bs < minimax d (apply_move gs mv) alpha ⊤ false my
        then rootLoop gs d my ms (some mv, minimax d (apply_move gs mv) alpha ⊤ false my,
          max alpha (minimax d (apply_move gs mv) alpha ⊤ false my))
        else rootLoop gs d my ms (best, bs, max alpha bs)) := by
  show rootLoop gs d my ms _ = _
  by_cases hc : bs < minimax d (apply_move gs mv) alpha ⊤ false my
  · rw [if_pos hc, if_pos hc]
  · rw [if_neg hc, if_neg hc]

/-- One step of the unpruned root loop. -/
theorem fullRootLoop_cons (gs : GameState) (d : Nat) (my : Nat) (mv : MoveT)
    (ms : List MoveT) (best : Option MoveT) (bs : ERat) :
    fullRootLoop gs d my (mv :: ms) (best, bs) =
      (if bs < fullMinimax d (apply_move gs mv) false my
        then fullRootLoop gs d my ms (some mv, fullMinimax d (apply_move gs mv) false my)
        else fullRootLoop gs d my ms (best, bs)) := by
  show fullRootLoop gs d my ms _ = _
  by_cases hc : bs < fullMinimax d (apply_move gs mv) false my
  · rw [if_pos hc, if_pos hc]
  · rw [if_neg hc, if_neg hc]

/-- With `alpha` tracking the best score, the pruned root loop computes the
same best move and best score as the unpruned one. -/
theorem rootLoop_eq_fullRootLoop (gs : GameState) (d : Nat) (my : Nat) :
    ∀ (ms : List MoveT) (best : Option MoveT) (bs : ERat), bs < ⊤ →
    (rootLoop gs d my ms (best, bs, bs)).1 = (fullRootLoop gs d my ms (best, bs)).1 ∧
    (rootLoop gs d my ms (best, bs, bs)).2.1 = (fullRootLoop gs d my ms (best, bs)).2 := by
  intro ms
  induction ms with
  | nil => intro best bs hbs; exact ⟨rfl, rfl⟩
  | cons mv ms ih =>
    intro best bs hbs
    rw [rootLoop_cons, fullRootLoop_cons]
    set score := minimax d (apply_move gs mv) bs ⊤ false my with hscore
    set v := fullMinimax d (apply_move gs mv) false my with hv
    have trip := minimax_spec my d (apply_move gs mv) bs ⊤ false hbs
    by_cases hup : bs < score
    · have hfin : score < ⊤ := (minimax_finite my d (apply_move gs mv) bs ⊤ false).2
      have hexact : score = v := trip.2.1 hup hfin
      rw [if_pos hup, if_pos (by rw [← hexact]; exact hup),
        max_eq_right (le_of_lt hup), ← hexact]
      exact ih (some mv) score hfin
    · have hle : score ≤ bs := le_of_not_lt hup
      have hvle : v ≤ score := trip.1 hle
      rw [if_neg hup, if_neg (by
          intro hcon
          exact absurd (lt_of_lt_of_le hcon hvle) hup),
        max_self]
      exact ih best bs hbs

/-- C2: for every game state and depth, the alpha-beta pruned root search of
`compute_best_move` returns exactly the best move and best score of the
unpruned full minimax over the same move ordering. -/
theorem search_at_depth_eq_full (gs : GameState) (depth : Nat) :
    search_at_depth gs depth = full_search_at_depth gs depth := by
  unfold search_at_depth full_search_at_depth
  have h := rootLoop_eq_fullRootLoop gs (depth - 1) gs.current_player
    (sorted_moves gs (root_legal_moves gs)) none ⊥ bot_lt_top
  exact Prod.ext h.1 h.2

/-! ### C3: the anytime publication contract -/

/-- The pruned root loop's best move is the initial one or one of the moves. -/
theorem rootLoop_fst_mem (gs : GameState) (d : Nat) (my : Nat) :
    ∀ (ms : List MoveT) (acc : Option MoveT × ERat × ERat),
    (rootLoop gs d my ms acc).1 = acc.1 ∨
      ∃ mv ∈ ms, (rootLoop gs d my ms acc).1 = some mv := by
  intro ms
  induction ms with
  | nil => intro acc; exact Or.inl rfl
  | cons mv ms ih =>
    rintro ⟨best, bs, alpha⟩
    rw [rootLoop_cons]
    by_cases hc : bs < minimax d (apply_move gs mv) alpha ⊤ false my
    · rw [if_pos hc]
      rcases ih (some mv, minimax d (apply_move gs mv) alpha ⊤ false my,
          max alpha (minimax d (apply_move gs mv) alpha ⊤ false my)) with h1 | ⟨mv2, hmv2, h2⟩
      · exact Or.inr ⟨mv, List.mem_cons_self mv ms, h1⟩
      · exact Or.inr ⟨mv2, List.mem_cons_of_mem mv hmv2, h2⟩
    · rw [if_neg hc]
      rcases ih (best, bs, max alpha bs) with h1 | ⟨mv2, hmv2, h2⟩
      · exact Or.inl h1
      · exact Or.inr ⟨mv2, List.mem_cons_of_mem mv hmv2, h2⟩

/-- Once a best move exists, the root loop keeps one. -/
theorem rootLoop_isSome (gs : GameState) (d : Nat) (my : Nat) :
    ∀ (ms : List MoveT) (acc : Option MoveT × ERat × ERat), acc.1.isSome →
    (rootLoop gs d my ms acc).1.isSome := by
  intro ms
  induction ms with
  | nil => intro acc h; exact h
  | cons mv ms ih =>
    rintro ⟨best, bs, alpha⟩ h
    rw [rootLoop_cons]
    by_cases hc : bs < minimax d (apply_move gs mv) alpha ⊤ false my
    · rw [if_pos hc]
      exact ih _ rfl
    · rw [if_neg hc]
      exact ih _ h

/-- On a nonempty root move list the loop always settles on some move. -/
theorem rootLoop_cons_isSome (gs : GameState) (d : Nat) (my : Nat) (mv : MoveT)
    (ms : List MoveT) (alpha : ERat) :
    (rootLoop gs d my (mv :: ms) (none, ⊥, alpha)).1.isSome := by
  rw [rootLoop_cons]
  rw [if_pos (minimax_finite my d (apply_move gs mv) alpha ⊤ false).1]
  exact rootLoop_isSome gs d my ms _ rfl

/-- A `filterMap` whose function always hits keeps the length. -/
theorem length_filterMap_isSome {α β : Type} (f : α → Option β) :
    ∀ (l : List α), (∀ x ∈ l, (f x).isSome) → (l.filterMap f).length = l.length := by
  intro l
  induction l with
  | nil => intro _; rfl
  | cons x xs ih =>
    intro h
    rcases hx : f x with _ | y
    · have := h x (List.mem_cons_self x xs)
      rw [hx] at this
      exact absurd this (by simp)
    · rw [List.filterMap_cons, hx, List.length_cons,
        ih (fun z hz => h z (List.mem_cons_of_mem x hz))]
      rfl

/-- Members of the sorted move list are conversions of root legal tuples. -/
theorem mem_sorted_moves (gs : GameState) (mts : List (Nat × Nat × Nat)) (mv : MoveT)
    (h : mv ∈ sorted_moves gs mts) :
    (mv.square.1, mv.square.2, mv.value) ∈ mts := by
  unfold sorted_moves at h
  have h2 := (List.mergeSort_perm (mts.map (fun t => (⟨(t.1, t.2.1), t.2.2⟩ : MoveT)))
    (fun a b => get_immediate_points gs b ≤ get_immediate_points gs a)).mem_iff.mp h
  obtain ⟨t, ht, hEq⟩ := List.mem_map.mp h2
  rw [← hEq]
  exact ht

/-- C3: if the root has no legal move nothing is published; otherwise the
sorted-first fallback is published at once, every completed depth publishes
its best move (`k+1` publications after `k` completed depths), and every
published move converts to a member of the root legal-move list — hence, by
`get_legal_moves_mem_iff`-style reasoning, a legal, non-taboo move for the
side to move in the original root state. -/
theorem compute_best_move_anytime (gs : GameState) (k : Nat) :
    (root_legal_moves gs = [] → published_moves gs k = []) ∧
    (root_legal_moves gs ≠ [] →
      (published_moves gs k).length = k + 1 ∧
      ∀ mv ∈ published_moves gs k,
        (mv.square.1, mv.square.2, mv.value) ∈ root_legal_moves gs) := by
  constructor
  · intro h
    unfold published_moves
    rw [if_pos h]
  · intro h
    rcases hms : sorted_moves gs (root_legal_moves gs) with _ | ⟨mv0, ms0⟩
    · exact absurd (sorted_moves_eq_nil gs _ hms) h
    · have hsome : ∀ depth ∈ List.range' 1 k,
          ((fun depth => (search_at_depth gs depth).1) depth).isSome := by
        intro depth _
        unfold search_at_depth
        rw [hms]
        exact rootLoop_cons_isSome gs (depth - 1) gs.current_player mv0 ms0 ⊥
      constructor
      · unfold published_moves
        rw [if_neg h, List.length_cons,
          length_filterMap_isSome (fun depth => (search_at_depth gs depth).1)
            (List.range' 1 k) hsome, List.length_range']
      · intro mv hmv
        unfold published_moves at hmv
        rw [if_neg h, hms] at hmv
        rcases List.mem_cons.mp hmv with hhead | htail
        · apply mem_sorted_moves gs _ mv
          rw [hms, hhead]
          show mv0 ∈ mv0 :: ms0
          exact List.mem_cons_self mv0 ms0
        · obtain ⟨depth, _, hdep⟩ := List.mem_filterMap.mp htail
          have hmem := rootLoop_fst_mem gs (depth - 1) gs.current_player
            (sorted_moves gs (root_legal_moves gs)) (none, ⊥, ⊥)
          unfold search_at_depth at hdep
          rcases hmem with h1 | ⟨mv2, hmv2, h2⟩
          · rw [h1] at hdep
            exact absurd hdep (by simp)
          · rw [h2] at hdep
            have : mv2 = mv := Option.some.inj hdep
            rw [← this]
            exact mem_sorted_moves gs _ mv2 hmv2

/-- Witness for `compute_best_move_anytime`: the 4×4 game `witnessState` has a
nonempty root legal-move list, and stopping after depth 2 yields three published
moves, all drawn from that list. -/
theorem compute_best_move_anytime_witness :
    root_legal_moves witnessState ≠ [] ∧
    ((published_moves witnessState 2).length = 2 + 1 ∧
      ∀ mv ∈ published_moves witnessState 2,
        (mv.square.1, mv.square.2, mv.value) ∈ root_legal_moves witnessState) :=
  ⟨by decide, (compute_best_move_anytime witnessState 2).2 (by decide)⟩

end Team71
